import Mathlib

/-!
Verification development for the taproot-assets repository.

The commitment engine (commitment/asset.go) is translated directly from the
source.  External collaborators of that file (the asset package, the mssmt
package and the crypto libraries) are not part of the sources; they are
either abstracted into an explicit record of external functions (Crypto) or
modelled from the specification, as indicated on each definition.
-/

/-- A byte string, as used throughout the Go sources.  Individual bytes are
natural numbers; well-formed byte strings have all entries below 256. -/
abbrev Bytes := List Nat

/-- Modulus of the Go uint64 type. -/
def U64 : Nat := 2 ^ 64

/-- Modulus of the Go uint32 type. -/
def U32 : Nat := 2 ^ 32

/-- The 8-byte big-endian encoding of a uint64 value, as produced by
binary.Write with binary.BigEndian on a uint64. -/
def be64 (n : Nat) : Bytes :=
  [n % U64 / 2 ^ 56 % 256, n % U64 / 2 ^ 48 % 256, n % U64 / 2 ^ 40 % 256,
   n % U64 / 2 ^ 32 % 256, n % U64 / 2 ^ 24 % 256, n % U64 / 2 ^ 16 % 256,
   n % U64 / 2 ^ 8 % 256, n % U64 % 256]

/-- The genesis data of an asset.  The commitment code only ever consumes a
genesis through the external functions Genesis.ID and Genesis.VerifySignature
of the asset package, so the genesis itself is kept abstract. -/
abbrev Genesis := Nat

/-- A group key of an asset: the schnorr group public key together with the
schnorr signature over the asset genesis ID (asset.GroupKey in Go).  Public
keys and signatures are abstract identifiers consumed only through the
external functions collected in Crypto. -/
structure GroupKey where
  groupPubKey : Nat
  sig : Nat
deriving DecidableEq

/-- The type of an asset (asset.Type in Go). -/
inductive AssetType where
  | normal
  | collectible
deriving DecidableEq

/-- An asset leaf (asset.Asset in Go).  Only the fields consumed by the
commitment engine are represented individually; the remaining fields
(previous witnesses, split commitment root, ...) are collapsed into the
abstract field rest, which external serialization may depend on. -/
structure Asset where
  version : Fin 256
  genesis : Genesis
  amount : Nat
  assetType : AssetType
  scriptKey : Nat
  groupKey : Option GroupKey
  rest : Nat
deriving DecidableEq

/-- The external functions the commitment engine calls into: the crypto
libraries (sha256, schnorr) and the asset package helpers.  The development
is parametric over this record, exactly as the Go code is parametric over
its imports. -/
structure Crypto where
  sha256 : Bytes → Bytes
  serializePub : Nat → Bytes
  genesisId : Genesis → Bytes
  verifySig : Genesis → Nat → Nat → Bool
  encodeAsset : Asset → Bytes

/-- Well-formedness of the external sha256 function: it returns a 32-byte
digest.  This mirrors the [32]byte return type of sha256.Sum256 in Go. -/
def CryptoWF (C : Crypto) : Prop :=
  ∀ d, (C.sha256 d).length = 32 ∧ ∀ b ∈ C.sha256 d, b < 256

/-- GroupKey.IsEqualGroup of the asset package: two optional group keys
agree when both are absent, or both are present with the same group public
key. -/
def isEqualGroup : Option GroupKey → Option GroupKey → Bool
  | none, none => true
  | some g, some h => g.groupPubKey == h.groupPubKey
  | _, _ => false

/-- Modelled from the spec: asset.AssetCommitmentKey is not under src; the
spec defines the inner MS-SMT key as H(asset_id followed by script_key). -/
def Asset.AssetCommitmentKey (C : Crypto) (a : Asset) : Bytes :=
  C.sha256 (C.genesisId a.genesis ++ C.serializePub a.scriptKey)

/-- Modelled from the spec: asset.TapCommitmentKey is not under src; the
spec defines the commitment id of an asset as its asset_id when ungrouped,
else sha256 of the schnorr-serialized group public key. -/
def Asset.TapCommitmentKey (C : Crypto) (a : Asset) : Bytes :=
  match a.groupKey with
  | none => C.genesisId a.genesis
  | some gk => C.sha256 (C.serializePub gk.groupPubKey)

/-- A leaf of the MS-SMT: a value byte string and a uint64 sum
(mssmt.LeafNode in Go). -/
structure LeafNode where
  value : Bytes
  sum : Nat
deriving DecidableEq

/-- Modelled from the spec: asset.Leaf is not under src; the spec says an
asset is committed as its serialized TLV payload with the asset amount as
the leaf sum. -/
def Asset.Leaf (C : Crypto) (a : Asset) : LeafNode :=
  { value := C.encodeAsset a, sum := a.amount }

/-- Modelled from the spec: the mssmt leaf hash,
H(leaf-tag followed by value hash followed by big-endian sum). -/
def leafHash (C : Crypto) (l : LeafNode) : Bytes :=
  C.sha256 ([108, 101, 97, 102] ++ C.sha256 l.value ++ be64 l.sum)

/-- Modelled from the spec: the mssmt branch hash,
H(branch-tag followed by left hash, left sum, right hash, right sum). -/
def branchHash (C : Crypto) (lh : Bytes) (ls : Nat) (rh : Bytes) (rs : Nat) : Bytes :=
  C.sha256 ([98, 114, 97, 110, 99, 104] ++ lh ++ be64 ls ++ rh ++ be64 rs)

/-- Modelled from the spec: the precomputed empty-subtree table of the
MS-SMT, giving the hash and sum of the all-empty subtree of each height. -/
def emptyNode (C : Crypto) : Nat → Bytes × Nat
  | 0 => (leafHash C { value := [], sum := 0 }, 0)
  | h + 1 =>
      let e := emptyNode C h
      (branchHash C e.1 0 e.1 0, 0)

/-- The w low bits of a natural number, least significant first. -/
def bitsAux : Nat → Nat → List Bool
  | 0, _ => []
  | w + 1, n => (n % 2 == 1) :: bitsAux w (n / 2)

/-- The bit string of a byte string, eight bits per byte. -/
def bytesBits : Bytes → List Bool
  | [] => []
  | b :: t => bitsAux 8 b ++ bytesBits t

/-- The 256-bit tree path of a 32-byte MS-SMT key. -/
def path256 (k : Bytes) : List Bool :=
  (bytesBits k ++ List.replicate 256 false).take 256

/-- The entries of one child subtree: keep the entries whose path starts
with the given bit and strip that bit. -/
def childEntries (b : Bool) (es : List (List Bool × LeafNode)) :
    List (List Bool × LeafNode) :=
  es.filterMap fun e =>
    match e.1 with
    | [] => none
    | b' :: p => if b' = b then some (p, e.2) else none

/-- Modelled from the spec: the hash and sum of the subtree of the given
height holding the given path-keyed entries.  An empty subtree comes from
the empty-subtree table; at height zero the (unique, for distinct full
paths) entry becomes a leaf node. -/
def subNode (C : Crypto) : Nat → List (List Bool × LeafNode) → Bytes × Nat
  | 0, [] => emptyNode C 0
  | 0, (_, l) :: _ => (leafHash C l, l.sum % U64)
  | h + 1, [] => emptyNode C (h + 1)
  | h + 1, e :: es =>
      let ln := subNode C h (childEntries false (e :: es))
      let rn := subNode C h (childEntries true (e :: es))
      (branchHash C ln.1 ln.2 rn.1 rn.2, (ln.2 + rn.2) % U64)

/-- The root branch node of an MS-SMT (mssmt.BranchNode in Go): the hashes
and sums of its two children. -/
structure BranchNode where
  leftHash : Bytes
  leftSum : Nat
  rightHash : Bytes
  rightSum : Nat
deriving DecidableEq

/-- BranchNode.NodeSum: the uint64 sum of the two child sums. -/
def BranchNode.NodeSum (b : BranchNode) : Nat :=
  (b.leftSum + b.rightSum) % U64

/-- Assignment into a Go map modelled as an association list: replace the
entry when the key is present, append it otherwise. -/
def mapInsert {α : Type} (m : List (Bytes × α)) (k : Bytes) (v : α) :
    List (Bytes × α) :=
  if k ∈ m.map Prod.fst then
    m.map fun e => if e.1 = k then (k, v) else e
  else m ++ [(k, v)]

/-- The path-keyed entry list of an MS-SMT store. -/
def pathEntries (store : List (Bytes × LeafNode)) :
    List (List Bool × LeafNode) :=
  store.map fun e => (path256 e.1, e.2)

/-- Modelled from the spec: the root branch node of the full-height (256)
MS-SMT holding the entries of the store (mssmt.Tree.Root in Go). -/
def treeRootOf (C : Crypto) (store : List (Bytes × LeafNode)) : BranchNode :=
  let es := pathEntries store
  let ln := subNode C 255 (childEntries false es)
  let rn := subNode C 255 (childEntries true es)
  { leftHash := ln.1, leftSum := ln.2, rightHash := rn.1, rightSum := rn.2 }

/-- The commitment construction errors of commitment/asset.go. -/
inductive CommitError where
  | noAssets
  | genesisMismatch
  | assetTypeMismatch
  | groupKeyMismatch
  | duplicateScriptKey (key : Bytes)
  | invalidGenesisSig
deriving DecidableEq

/-- The commitment identifier computed at the end of parseCommon: the
genesis ID of the first asset for ungrouped assets, else sha256 of the
schnorr-serialized group public key. -/
def commitmentIdOf (C : Crypto) (a0 : Asset) : Bytes :=
  match a0.groupKey with
  | none => C.genesisId a0.genesis
  | some gk => C.sha256 (C.serializePub gk.groupPubKey)

/-- The per-asset validation switch of the parseCommon loop: group key
mismatch, genesis mismatch for ungrouped assets, or an invalid genesis
signature for grouped assets.  The some-none case is unreachable because
isEqualGroup already failed there; it is kept for totality. -/
def checkAsset (C : Crypto) (assetGroupKey : Option GroupKey)
    (assetGenesis : Bytes) (a : Asset) : Option CommitError :=
  if isEqualGroup assetGroupKey a.groupKey then
    match assetGroupKey, a.groupKey with
    | none, _ =>
        if assetGenesis ≠ C.genesisId a.genesis then some .genesisMismatch
        else none
    | some gk, some agk =>
        if C.verifySig a.genesis agk.sig gk.groupPubKey then none
        else some .invalidGenesisSig
    | some _, none => some .groupKeyMismatch
  else some .groupKeyMismatch

/-- The result of parseCommon: the maximal version, the commitment ID and
the committed-asset map (the AssetCommitment before its tree is built). -/
structure ParsedCommitment where
  version : Fin 256
  assetID : Bytes
  assets : List (Bytes × Asset)
deriving DecidableEq

/-- The loop body of parseCommon: validate each asset, reject duplicate
asset commitment keys, track the maximal version and build the asset map. -/
def parseCommonLoop (C : Crypto) (assetGroupKey : Option GroupKey)
    (assetGenesis : Bytes) :
    List Asset → Fin 256 → List (Bytes × Asset) →
    Except CommitError (Fin 256 × List (Bytes × Asset))
  | [], maxVersion, m => .ok (maxVersion, m)
  | a :: rest, maxVersion, m =>
    match checkAsset C assetGroupKey assetGenesis a with
    | some e => .error e
    | none =>
      if a.AssetCommitmentKey C ∈ m.map Prod.fst then
        .error (.duplicateScriptKey (a.AssetCommitmentKey C))
      else
        parseCommonLoop C assetGroupKey assetGenesis rest
          (if maxVersion < a.version then a.version else maxVersion)
          (mapInsert m (a.AssetCommitmentKey C) a)

/-- parseCommon of commitment/asset.go: extract the common fixed parameters
of a set of assets. -/
def parseCommon (C : Crypto) (assets : List Asset) :
    Except CommitError ParsedCommitment :=
  match assets with
  | [] => .error .noAssets
  | a0 :: _ =>
    (parseCommonLoop C a0.groupKey (C.genesisId a0.genesis) assets 0 []).map
      fun r => { version := r.1, assetID := commitmentIdOf C a0, assets := r.2 }

/-- AssetCommitment of commitment/asset.go, as built by NewAssetCommitment:
the maximal version, the commitment ID, the root branch node of the inner
MS-SMT, the tree store and the committed-asset map. -/
structure AssetCommitment where
  version : Fin 256
  assetID : Bytes
  treeRoot : BranchNode
  tree : List (Bytes × LeafNode)
  assets : List (Bytes × Asset)
deriving DecidableEq

/-- The construction step of NewAssetCommitment after parseCommon: insert
every asset leaf into a fresh MS-SMT and record the tree root. -/
def buildCommitment (C : Crypto) (assets : List Asset) (p : ParsedCommitment) :
    AssetCommitment :=
  let store := assets.foldl
    (fun s a => mapInsert s (a.AssetCommitmentKey C) (a.Leaf C)) []
  { version := p.version, assetID := p.assetID,
    treeRoot := treeRootOf C store, tree := store, assets := p.assets }

/-- NewAssetCommitment of commitment/asset.go. -/
def NewAssetCommitment (C : Crypto) (assets : List Asset) :
    Except CommitError AssetCommitment :=
  (parseCommon C assets).map (buildCommitment C assets)

/-- AssetCommitment.Root of commitment/asset.go:
sha256(AssetID, left child hash, right child hash, big-endian node sum). -/
def AssetCommitment.Root (C : Crypto) (c : AssetCommitment) : Bytes :=
  C.sha256 (c.assetID ++ c.treeRoot.leftHash ++ c.treeRoot.rightHash ++
    be64 c.treeRoot.NodeSum)

/-- AssetCommitment.TapCommitmentKey of commitment/asset.go. -/
def AssetCommitment.TapCommitmentKey (c : AssetCommitment) : Bytes :=
  c.assetID

/-- AssetCommitment.TapCommitmentLeaf of commitment/asset.go: the leaf is
the version byte, the commitment root hash and the big-endian node sum,
with the node sum as the leaf sum. -/
def AssetCommitment.TapCommitmentLeaf (C : Crypto) (c : AssetCommitment) :
    LeafNode :=
  { value := c.version.val :: (c.Root C ++ be64 c.treeRoot.NodeSum),
    sum := c.treeRoot.NodeSum }

/-- The mutation step of Upsert after all validation passed: insert the
leaf in the tree, recompute the tree root and update the asset map. -/
def upsertApply (C : Crypto) (c : AssetCommitment) (a : Asset) :
    Except CommitError Unit × AssetCommitment :=
  let key := a.AssetCommitmentKey C
  let store := mapInsert c.tree key (a.Leaf C)
  (.ok (), { c with treeRoot := treeRootOf C store, tree := store,
                    assets := mapInsert c.assets key a })

/-- The validation steps of Upsert after the asset type check: the tap
commitment key of the asset must match the commitment ID, and a grouped
asset must carry a valid genesis signature under its own group key. -/
def upsertChecked (C : Crypto) (c : AssetCommitment) (a : Asset) :
    Except CommitError Unit × AssetCommitment :=
  if a.TapCommitmentKey C ≠ c.assetID then
    match a.groupKey with
    | some _ => (.error .groupKeyMismatch, c)
    | none => (.error .genesisMismatch, c)
  else
    match a.groupKey with
    | some agk =>
        if C.verifySig a.genesis agk.sig agk.groupPubKey then
          upsertApply C c a
        else (.error .invalidGenesisSig, c)
    | none => upsertApply C c a

/-- AssetCommitment.Upsert of commitment/asset.go.  The Go method mutates
the receiver; here the (possibly unchanged) new state is returned next to
the error.  A nil asset is the none argument.  The asset type is checked
against one already committed asset (the Go code ranges over the map and
breaks after one iteration; the model takes the first entry). -/
def AssetCommitment.Upsert (C : Crypto) (c : AssetCommitment)
    (a? : Option Asset) : Except CommitError Unit × AssetCommitment :=
  match a? with
  | none => (.error .noAssets, c)
  | some a =>
    match c.assets with
    | (_, r) :: _ =>
        if r.assetType ≠ a.assetType then (.error .assetTypeMismatch, c)
        else upsertChecked C c a
    | [] => upsertChecked C c a

/-- An anchored commitment as listed for coin selection
(tapfreighter.AnchoredCommitment); only the fields the selector consumes
are represented: an identifier standing for the anchor point and the asset
amount. -/
structure AnchoredCommitment where
  anchorPoint : Nat
  assetAmount : Nat
deriving DecidableEq

/-- The coin selection error of tapfreighter/interface.go. -/
inductive SelectError where
  | matchingAssetsNotFound
deriving DecidableEq

/-- MultiCommitmentSelectStrategy of tapfreighter/interface.go. -/
inductive MultiCommitmentSelectStrategy where
  | preferMaxAmount
deriving DecidableEq

/-- The total asset amount of a list of anchored commitments. -/
def amtSum (cs : List AnchoredCommitment) : Nat :=
  (cs.map AnchoredCommitment.assetAmount).sum

/-- Insert one commitment into a descending-by-amount sorted list. -/
def insDesc (c : AnchoredCommitment) :
    List AnchoredCommitment → List AnchoredCommitment
  | [] => [c]
  | d :: t => if d.assetAmount ≤ c.assetAmount then c :: d :: t
              else d :: insDesc c t

/-- Sort a list of commitments by descending asset amount. -/
def sortDesc : List AnchoredCommitment → List AnchoredCommitment
  | [] => []
  | c :: t => insDesc c (sortDesc t)

/-- Take the shortest prefix of the (already sorted) commitments whose
amounts sum to at least the minimal target; fail when the list is
exhausted first. -/
def selectAccum : Nat → List AnchoredCommitment →
    Except SelectError (List AnchoredCommitment)
  | minTotal, [] =>
      if minTotal = 0 then .ok [] else .error .matchingAssetsNotFound
  | minTotal, c :: rest =>
      if minTotal = 0 then .ok []
      else (selectAccum (minTotal - c.assetAmount) rest).map (c :: ·)

/-- Modelled from the spec: the SelectForAmount implementation is not under
src (tapfreighter/interface.go only declares the CoinSelector interface and
the PreferMaxAmount strategy); the spec prescribes sorting descending by
amount and taking the prefix whose cumulative sum reaches the minimum,
failing with MatchingAssetsNotFound when exhausted first. -/
def SelectForAmount (minTotalAmount : Nat)
    (eligibleCommitments : List AnchoredCommitment)
    (strategy : MultiCommitmentSelectStrategy) :
    Except SelectError (List AnchoredCommitment) :=
  match strategy with
  | .preferMaxAmount => selectAccum minTotalAmount (sortDesc eligibleCommitments)

/-- hdkeychain.HardenedKeyStart. -/
def HardenedKeyStart : Nat := 2 ^ 31

/-- keychain.BIP0043Purpose (1017). -/
def BIP0043Purpose : Nat := 1017

/-- keychain.KeyLocator: a key family and an index. -/
structure KeyLocator where
  family : Nat
  index : Nat
deriving DecidableEq

/-- The errors of the derivation-path helpers of the tappsbt package. -/
inductive DerivationError where
  | invalidPathLength (n : Nat)
  | invalidPurpose (got : Nat)
  | familyNotHardened
  | pubKeyMissing
  | pubKeyParse
deriving DecidableEq

/-- extractLocatorFromPath of the tappsbt package: a five-element path whose
first element is the hardened 1017 purpose and whose third element is
hardened yields the locator (third element unhardened, fifth element). -/
def extractLocatorFromPath (path : List Nat) :
    Except DerivationError KeyLocator :=
  match path with
  | [p0, _p1, p2, _p3, p4] =>
      if p0 ≠ BIP0043Purpose + HardenedKeyStart then .error (.invalidPurpose p0)
      else if p2 < HardenedKeyStart then .error .familyNotHardened
      else .ok { family := p2 - HardenedKeyStart, index := p4 }
  | _ => .error (.invalidPathLength path.length)

/-- Little-endian base-256 digits of a natural number, with explicit fuel
for structural recursion. -/
def natToBytesAux : Nat → Nat → Bytes
  | 0, _ => []
  | _ + 1, 0 => []
  | f + 1, n => n % 256 :: natToBytesAux f (n / 256)

/-- Reassemble a natural number from little-endian base-256 digits. -/
def bytesToNat : Bytes → Nat
  | [] => 0
  | b :: t => b + 256 * bytesToNat t

/-- Modelled from the external btcec library contract: the compressed
serialization of a public key is a non-empty byte string with a leading
type byte, and parsing inverts serialization.  Public keys themselves are
abstract identifiers. -/
def serializeCompressed (k : Nat) : Bytes :=
  2 :: natToBytesAux k k

/-- Modelled from the external btcec library contract: btcec.ParsePubKey,
the inverse of serializeCompressed. -/
def parsePubKey (bs : Bytes) : Except DerivationError Nat :=
  match bs with
  | 2 :: rest => .ok (bytesToNat rest)
  | _ => .error .pubKeyParse

/-- keychain.KeyDescriptor: a public key with its key locator data.  The
family and index are uint32 values in Go. -/
structure KeyDescriptor where
  pubKey : Nat
  family : Nat
  index : Nat
deriving DecidableEq

/-- psbt.Bip32Derivation. -/
structure Bip32Derivation where
  pubKey : Bytes
  masterKeyFingerprint : Nat
  bip32Path : List Nat
deriving DecidableEq

/-- psbt.TaprootBip32Derivation. -/
structure TaprootBip32Derivation where
  xOnlyPubKey : Bytes
  masterKeyFingerprint : Nat
  bip32Path : List Nat
  leafHashes : List Bytes
deriving DecidableEq

/-- Bip32DerivationFromKeyDesc of the tappsbt package.  The additions of
the hardened offset to the coin type and to the key family are uint32
additions in Go, hence the explicit reductions modulo 2^32. -/
def Bip32DerivationFromKeyDesc (keyDesc : KeyDescriptor) (coinType : Nat) :
    Bip32Derivation × TaprootBip32Derivation :=
  let d : Bip32Derivation :=
    { pubKey := serializeCompressed keyDesc.pubKey
      masterKeyFingerprint := 0
      bip32Path := [BIP0043Purpose + HardenedKeyStart,
                    (coinType + HardenedKeyStart) % U32,
                    (keyDesc.family + HardenedKeyStart) % U32,
                    0, keyDesc.index] }
  (d, { xOnlyPubKey := d.pubKey.drop 1
        masterKeyFingerprint := d.masterKeyFingerprint
        bip32Path := d.bip32Path
        leafHashes := [] })

/-- KeyDescFromBip32Derivation of the tappsbt package: reject an empty
public key, parse it, and extract the locator from the path. -/
def KeyDescFromBip32Derivation (d : Bip32Derivation) :
    Except DerivationError KeyDescriptor :=
  if d.pubKey = [] then .error .pubKeyMissing
  else
    match parsePubKey d.pubKey with
    | .error e => .error e
    | .ok k =>
      match extractLocatorFromPath d.bip32Path with
      | .error e => .error e
      | .ok loc => .ok { pubKey := k, family := loc.family, index := loc.index }

/-- The batch states of the minting state machine (tapgarden.BatchState). -/
inductive BatchState where
  | pending
  | frozen
  | committed
  | broadcast
  | confirmed
  | finalized
  | seedlingCancelled
  | sproutCancelled
deriving DecidableEq

/-- A minting batch, reduced to its batch key and state. -/
structure MintingBatch where
  batchKey : Nat
  state : BatchState
deriving DecidableEq

/-- The observable result of a cancellation request: either the batch was
cancelled, or it was not cancellable and its batch key is returned together
with the batch-not-cancellable error. -/
inductive CancelResult where
  | cancelled (batchKey : Nat)
  | notCancellable (batchKey : Nat)
deriving DecidableEq

/-- Modelled from the spec: the planter implementation is not under src
(only its tests are); a cancellation request before Frozen yields
SeedlingCancelled, between Frozen and Broadcast yields SproutCancelled, and
from Broadcast on it returns the batch key of the batch without altering
its state. -/
def CancelBatch (b : MintingBatch) : CancelResult × MintingBatch :=
  match b.state with
  | .pending => (.cancelled b.batchKey, { b with state := .seedlingCancelled })
  | .frozen => (.cancelled b.batchKey, { b with state := .sproutCancelled })
  | .committed => (.cancelled b.batchKey, { b with state := .sproutCancelled })
  | _ => (.notCancellable b.batchKey, b)

/-- Modelled from the spec: on confirmation of its genesis transaction a
broadcast batch becomes Confirmed. -/
def ConfirmBatch (b : MintingBatch) : MintingBatch :=
  if b.state = .broadcast then { b with state := .confirmed } else b

/-- Modelled from the spec: after proof emission a confirmed batch becomes
Finalized. -/
def FinalizeBatch (b : MintingBatch) : MintingBatch :=
  if b.state = .confirmed then { b with state := .finalized } else b

/-- A trivial instance of the external functions used by witnesses: sha256
is the constant 32-byte zero digest and every signature verifies. -/
def wCryptoT : Crypto :=
  { sha256 := fun _ => List.replicate 32 0
    serializePub := fun _ => []
    genesisId := fun _ => []
    verifySig := fun _ _ _ => true
    encodeAsset := fun _ => [] }

/-- A variant of wCryptoT under which no signature verifies. -/
def wCryptoF : Crypto :=
  { wCryptoT with verifySig := fun _ _ _ => false }

/-- An instance of the external functions for counterexamples: hashes are
transparent and a signature verifies exactly when the genesis is 0. -/
def cexCrypto : Crypto :=
  { sha256 := fun d => d
    serializePub := fun k => [k]
    genesisId := fun g => [g]
    verifySig := fun g _ _ => g == 0
    encodeAsset := fun _ => [] }

/-- A concrete ungrouped asset used by witnesses. -/
def wAsset : Asset :=
  { version := 0, genesis := 0, amount := 1, assetType := .normal,
    scriptKey := 0, groupKey := none, rest := 0 }

/-- A concrete grouped asset whose signature is rejected by wCryptoF. -/
def wgAsset : Asset :=
  { version := 0, genesis := 0, amount := 1, assetType := .normal,
    scriptKey := 0, groupKey := some { groupPubKey := 7, sig := 1 }, rest := 0 }

/-- A duplicate of wgAsset differing only in its amount. -/
def wgAsset2 : Asset :=
  { wgAsset with amount := 2 }

/-- Counterexample asset: grouped, genesis 0 (valid signature under
cexCrypto), script key 5. -/
def cexB : Asset :=
  { version := 0, genesis := 0, amount := 1, assetType := .normal,
    scriptKey := 5, groupKey := some { groupPubKey := 7, sig := 1 }, rest := 0 }

/-- Counterexample asset: cexB with a different amount, hence a distinct
entry with the same asset commitment key. -/
def cexB2 : Asset :=
  { cexB with amount := 2 }

/-- Counterexample asset: grouped under the same group key, genesis 1, so
its signature is rejected by cexCrypto. -/
def cexC : Asset :=
  { version := 0, genesis := 1, amount := 1, assetType := .normal,
    scriptKey := 6, groupKey := some { groupPubKey := 7, sig := 1 }, rest := 0 }

/-- A trivial concrete asset commitment used by witnesses. -/
def trivAC : AssetCommitment :=
  { version := 0, assetID := [],
    treeRoot := { leftHash := [], leftSum := 0, rightHash := [], rightSum := 0 },
    tree := [], assets := [] }

/-- A concrete key descriptor whose key family is the hardened offset
itself, used by the C10 counterexample. -/
def cexKeyDesc : KeyDescriptor :=
  { pubKey := 5, family := HardenedKeyStart, index := 9 }

lemma bytesToNat_natToBytesAux : ∀ f n, n ≤ f →
    bytesToNat (natToBytesAux f n) = n := by
  intro f
  induction f with
  | zero =>
    intro n hn
    interval_cases n
    simp [natToBytesAux, bytesToNat]
  | succ f ih =>
    intro n hn
    match n with
    | 0 => simp [natToBytesAux, bytesToNat]
    | m + 1 =>
      have hdiv : (m + 1) / 256 ≤ f := by
        have := Nat.div_lt_self (Nat.succ_pos m) (by norm_num : 1 < 256)
        omega
      simp only [natToBytesAux, bytesToNat, ih _ hdiv]
      omega

lemma hardenedKeyStart_eq : HardenedKeyStart = 2147483648 := by
  norm_num [HardenedKeyStart]

lemma u32_eq : U32 = 4294967296 := by
  norm_num [U32]

/-- Claim C7 (counterexample): extractLocatorFromPath accepts a five-element
path whose second element (the coin type) is not hardened, contradicting the
claim that every path whose first three elements are not all hardened is
rejected. -/
theorem extractLocatorFromPath_cex :
    extractLocatorFromPath
      [BIP0043Purpose + HardenedKeyStart, 0, HardenedKeyStart + 1, 0, 7]
      = .ok { family := 1, index := 7 } ∧
    (0 : Nat) < HardenedKeyStart := by
  refine ⟨?_, by rw [hardenedKeyStart_eq]; omega⟩
  rw [extractLocatorFromPath]
  rw [if_neg (by omega), if_neg (by omega)]
  congr 1

/-- Claim C7 (amended): extractLocatorFromPath accepts a BIP-32 derivation
path exactly when it has five elements, its first element is the hardened
1017 purpose and its third element is hardened (the second element is not
checked); every other path is rejected with an error, and on success the key
locator carries the unhardened third element as family and the fifth element
as index. -/
theorem extractLocatorFromPath_ok_iff (path : List Nat) (loc : KeyLocator) :
    extractLocatorFromPath path = .ok loc ↔
      ∃ p0 p1 p2 p3 p4, path = [p0, p1, p2, p3, p4] ∧
        p0 = BIP0043Purpose + HardenedKeyStart ∧
        HardenedKeyStart ≤ p2 ∧
        loc = { family := p2 - HardenedKeyStart, index := p4 } := by
  rcases path with _ | ⟨p0, _ | ⟨p1, _ | ⟨p2, _ | ⟨p3, _ | ⟨p4, _ | ⟨p5, t⟩⟩⟩⟩⟩⟩
  · simp [extractLocatorFromPath]
  · simp [extractLocatorFromPath]
  · simp [extractLocatorFromPath]
  · simp [extractLocatorFromPath]
  · simp [extractLocatorFromPath]
  case cons.cons.cons.cons.cons.nil =>
    rw [extractLocatorFromPath]
    by_cases h0 : p0 = BIP0043Purpose + HardenedKeyStart
    · by_cases h2 : p2 < HardenedKeyStart
      · rw [if_neg (by omega), if_pos h2]
        constructor
        · intro h
          exact absurd h (by simp)
        · rintro ⟨q0, q1, q2, q3, q4, he, hq0, hq2, rfl⟩
          obtain ⟨rfl, rfl, rfl, rfl, rfl⟩ := he
          exact absurd hq2 (Nat.not_le_of_lt h2)
      · rw [if_neg (by omega), if_neg h2]
        constructor
        · intro h
          rw [Except.ok.injEq] at h
          exact ⟨p0, p1, p2, p3, p4, rfl, h0, Nat.le_of_not_lt h2, h.symm⟩
        · rintro ⟨q0, q1, q2, q3, q4, he, hq0, hq2, rfl⟩
          obtain ⟨rfl, rfl, rfl, rfl, rfl⟩ := he
          rfl
    · rw [if_pos (by omega)]
      constructor
      · intro h
        exact absurd h (by simp)
      · rintro ⟨q0, q1, q2, q3, q4, he, hq0, hq2, rfl⟩
        obtain ⟨rfl, rfl, rfl, rfl, rfl⟩ := he
        exact absurd hq0 h0
  case cons.cons.cons.cons.cons.cons =>
    simp [extractLocatorFromPath]

/-- Claim C10 (counterexample): for a key descriptor whose key family is the
hardened offset 2^31 itself, the uint32 addition of the hardened offset in
Bip32DerivationFromKeyDesc wraps around to an unhardened value, so feeding
the produced derivation back into KeyDescFromBip32Derivation fails instead
of round-tripping. -/
theorem bip32RoundTrip_cex :
    KeyDescFromBip32Derivation (Bip32DerivationFromKeyDesc cexKeyDesc 0).1
      = .error .familyNotHardened := by
  show KeyDescFromBip32Derivation
      { pubKey := serializeCompressed 5, masterKeyFingerprint := 0,
        bip32Path := [BIP0043Purpose + HardenedKeyStart,
          (0 + HardenedKeyStart) % U32,
          (HardenedKeyStart + HardenedKeyStart) % U32, 0, 9] }
      = .error .familyNotHardened
  have hwrap : (HardenedKeyStart + HardenedKeyStart) % U32 = 0 := by
    rw [hardenedKeyStart_eq, u32_eq]
  simp only [KeyDescFromBip32Derivation, serializeCompressed]
  rw [if_neg (by simp)]
  simp only [parsePubKey, hwrap]
  rw [extractLocatorFromPath]
  rw [if_neg (by omega), if_pos (by rw [hardenedKeyStart_eq]; omega)]

lemma KeyDescFrom_eq (pk : Bytes) (mf : Nat) (path : List Nat) :
    KeyDescFromBip32Derivation ⟨pk, mf, path⟩ =
      (if pk = [] then .error .pubKeyMissing
       else match parsePubKey pk with
       | .error e => .error e
       | .ok k =>
         match extractLocatorFromPath path with
         | .error e => .error e
         | .ok loc => .ok ⟨k, loc.family, loc.index⟩) := rfl

/-- Claim C10 (amended): for every key descriptor whose key family is below
the hardened offset 2^31 (so that adding the offset does not wrap the
uint32) and every coin type, feeding the default BIP-32 derivation produced
by Bip32DerivationFromKeyDesc into KeyDescFromBip32Derivation succeeds and
returns the same public key, key family and index. -/
theorem bip32DerivationRoundTrip (keyDesc : KeyDescriptor) (coinType : Nat)
    (hfam : keyDesc.family < HardenedKeyStart) :
    KeyDescFromBip32Derivation (Bip32DerivationFromKeyDesc keyDesc coinType).1
      = .ok keyDesc := by
  obtain ⟨k, fam, idx⟩ := keyDesc
  simp only at hfam
  have hmod : (fam + HardenedKeyStart) % U32 = fam + HardenedKeyStart := by
    apply Nat.mod_eq_of_lt
    rw [hardenedKeyStart_eq] at hfam
    rw [hardenedKeyStart_eq, u32_eq]
    omega
  have hpath : extractLocatorFromPath
      [BIP0043Purpose + HardenedKeyStart, (coinType + HardenedKeyStart) % U32,
        (fam + HardenedKeyStart) % U32, 0, idx]
      = .ok { family := fam, index := idx } := by
    rw [hmod]
    rw [extractLocatorFromPath]
    rw [if_neg (by omega), if_neg (by omega)]
    have hsub : fam + HardenedKeyStart - HardenedKeyStart = fam := by omega
    rw [hsub]
  show KeyDescFromBip32Derivation
      { pubKey := serializeCompressed k, masterKeyFingerprint := 0,
        bip32Path := [BIP0043Purpose + HardenedKeyStart,
          (coinType + HardenedKeyStart) % U32,
          (fam + HardenedKeyStart) % U32, 0, idx] }
      = .ok ⟨k, fam, idx⟩
  rw [KeyDescFrom_eq]
  rw [if_neg (by simp [serializeCompressed])]
  have hparse : parsePubKey (serializeCompressed k)
      = .ok (bytesToNat (natToBytesAux k k)) := rfl
  rw [hparse, hpath, bytesToNat_natToBytesAux k k le_rfl]

/-- Witness for the amended claim C10 at a concrete key descriptor. -/
theorem bip32DerivationRoundTrip_witness :
    KeyDescFromBip32Derivation (Bip32DerivationFromKeyDesc
      { pubKey := 5, family := 3, index := 9 } 1).1
      = .ok { pubKey := 5, family := 3, index := 9 } :=
  bip32DerivationRoundTrip { pubKey := 5, family := 3, index := 9 } 1
    (by show (3 : Nat) < HardenedKeyStart; rw [hardenedKeyStart_eq]; omega)

/-- Claim C8: for every minting batch that has reached the Broadcast state,
a cancellation request returns the batch key of the broadcast batch and
never changes the batch state; the batch remains in Broadcast and still
proceeds to Confirmed and Finalized on confirmation. -/
theorem cancelAfterBroadcast (b : MintingBatch) (hb : b.state = .broadcast) :
    CancelBatch b = (.notCancellable b.batchKey, b) ∧
    (CancelBatch b).2.state = .broadcast ∧
    (ConfirmBatch (CancelBatch b).2).state = .confirmed ∧
    (FinalizeBatch (ConfirmBatch (CancelBatch b).2)).state = .finalized := by
  obtain ⟨k, s⟩ := b
  simp only at hb
  subst hb
  simp [CancelBatch, ConfirmBatch, FinalizeBatch]

/-- Witness for claim C8 at a concrete broadcast batch. -/
theorem cancelAfterBroadcast_witness :
    CancelBatch { batchKey := 1, state := .broadcast }
      = (.notCancellable 1, { batchKey := 1, state := .broadcast }) :=
  (cancelAfterBroadcast { batchKey := 1, state := .broadcast } rfl).1

lemma insDesc_perm (c : AnchoredCommitment) (l : List AnchoredCommitment) :
    (insDesc c l).Perm (c :: l) := by
  induction l with
  | nil => simp [insDesc]
  | cons d t ih =>
    rw [insDesc]
    split
    · exact List.Perm.refl _
    · exact (ih.cons d).trans (List.Perm.swap c d t)

lemma sortDesc_perm (l : List AnchoredCommitment) : (sortDesc l).Perm l := by
  induction l with
  | nil => simp [sortDesc]
  | cons c t ih =>
    rw [sortDesc]
    exact (insDesc_perm c (sortDesc t)).trans (ih.cons c)

lemma insDesc_sorted (c : AnchoredCommitment) (l : List AnchoredCommitment)
    (h : l.Pairwise fun a b => b.assetAmount ≤ a.assetAmount) :
    (insDesc c l).Pairwise fun a b => b.assetAmount ≤ a.assetAmount := by
  induction l with
  | nil => simp [insDesc]
  | cons d t ih =>
    obtain ⟨hd, ht⟩ := List.pairwise_cons.mp h
    rw [insDesc]
    split
    case isTrue hle =>
      refine List.pairwise_cons.mpr ⟨?_, h⟩
      intro x hx
      rcases List.mem_cons.mp hx with rfl | hx
      · exact hle
      · exact le_trans (hd x hx) hle
    case isFalse hgt =>
      refine List.pairwise_cons.mpr ⟨?_, ih ht⟩
      intro x hx
      have hx' := (insDesc_perm c t).mem_iff.mp hx
      rcases List.mem_cons.mp hx' with rfl | hx'
      · exact Nat.le_of_not_le hgt
      · exact hd x hx'

lemma sortDesc_sorted (l : List AnchoredCommitment) :
    (sortDesc l).Pairwise fun a b => b.assetAmount ≤ a.assetAmount := by
  induction l with
  | nil => simp [sortDesc]
  | cons c t ih =>
    rw [sortDesc]
    exact insDesc_sorted c (sortDesc t) ih

lemma selectAccum_ok_spec :
    ∀ (l : List AnchoredCommitment) (minTotal : Nat)
      (sel : List AnchoredCommitment),
      selectAccum minTotal l = .ok sel →
        (∃ t, sel ++ t = l) ∧ minTotal ≤ amtSum sel ∧
        ∀ pre q, pre ++ q = sel → q ≠ [] → amtSum pre < minTotal := by
  intro l
  induction l with
  | nil =>
    intro minTotal sel h
    rw [selectAccum] at h
    split at h
    case isTrue hm =>
      cases h
      subst hm
      refine ⟨⟨[], rfl⟩, le_rfl, ?_⟩
      intro pre q hpq hq
      exact absurd (List.append_eq_nil.mp hpq).2 hq
    case isFalse hm => cases h
  | cons c rest ih =>
    intro minTotal sel h
    rw [selectAccum] at h
    split at h
    case isTrue hm =>
      cases h
      subst hm
      refine ⟨⟨c :: rest, rfl⟩, le_rfl, ?_⟩
      intro pre q hpq hq
      exact absurd (List.append_eq_nil.mp hpq).2 hq
    case isFalse hm =>
      rcases hsel : selectAccum (minTotal - c.assetAmount) rest with e | sel'
      · rw [hsel] at h; cases h
      · rw [hsel] at h
        simp only [Except.map] at h
        cases h
        obtain ⟨⟨t, ht⟩, hsum, hmin⟩ := ih _ _ hsel
        refine ⟨⟨t, by rw [List.cons_append, ht]⟩, ?_, ?_⟩
        · have : amtSum (c :: sel') = c.assetAmount + amtSum sel' := by
            simp [amtSum]
          omega
        · intro pre q hpq hq
          rcases pre with _ | ⟨p, pre'⟩
          · simp only [amtSum, List.map_nil, List.sum_nil]
            omega
          · rw [List.cons_append] at hpq
            have hp : p = c := (List.cons.injEq _ _ _ _).mp hpq |>.1
            have hpre : pre' ++ q = sel' := (List.cons.injEq _ _ _ _).mp hpq |>.2
            have := hmin pre' q hpre hq
            have hps : amtSum (p :: pre') = p.assetAmount + amtSum pre' := by
              simp [amtSum]
            subst hp
            omega

lemma selectAccum_error_iff :
    ∀ (l : List AnchoredCommitment) (minTotal : Nat),
      selectAccum minTotal l = .error .matchingAssetsNotFound ↔
        amtSum l < minTotal := by
  intro l
  induction l with
  | nil =>
    intro minTotal
    rw [selectAccum]
    split
    case isTrue hm => subst hm; simp [amtSum]
    case isFalse hm =>
      simp only [amtSum, List.map_nil, List.sum_nil]
      exact ⟨fun _ => Nat.pos_of_ne_zero hm, fun _ => trivial⟩
  | cons c rest ih =>
    intro minTotal
    rw [selectAccum]
    split
    case isTrue hm =>
      subst hm
      simp [amtSum]
    case isFalse hm =>
      have hsum : amtSum (c :: rest) = c.assetAmount + amtSum rest := by
        simp [amtSum]
      have hrest := ih (minTotal - c.assetAmount)
      constructor
      · intro h
        rcases hsel : selectAccum (minTotal - c.assetAmount) rest with e | sel'
        · rw [hsel] at hrest
          cases e
          have := hrest.mp rfl
          omega
        · rw [hsel] at h
          simp only [Except.map] at h
          exact absurd h (by simp)
      · intro hlt
        rcases hsel : selectAccum (minTotal - c.assetAmount) rest with e | sel'
        · cases e
          rfl
        · exfalso
          rw [hsel] at hrest
          have hno : ¬ (amtSum rest < minTotal - c.assetAmount) := by
            intro hx
            exact absurd (hrest.mpr hx) (by simp)
          omega

/-- Claim C6: coin selection with strategy PreferMaxAmount considers the
eligible commitments in descending order of amount (the considered list is
the descending sort of the input) and returns the first prefix whose
cumulative amount reaches the minimum target; when all eligible commitments
are exhausted without reaching the minimum, it fails with the
MatchingAssetsNotFound error. -/
theorem selectForAmount_preferMaxAmount (minTotal : Nat)
    (cs : List AnchoredCommitment) :
    (sortDesc cs).Perm cs ∧
    ((sortDesc cs).Pairwise fun a b => b.assetAmount ≤ a.assetAmount) ∧
    (∀ sel, SelectForAmount minTotal cs .preferMaxAmount = .ok sel →
      (∃ t, sel ++ t = sortDesc cs) ∧ minTotal ≤ amtSum sel ∧
      ∀ pre q, pre ++ q = sel → q ≠ [] → amtSum pre < minTotal) ∧
    (amtSum cs < minTotal →
      SelectForAmount minTotal cs .preferMaxAmount
        = .error .matchingAssetsNotFound) := by
  refine ⟨sortDesc_perm cs, sortDesc_sorted cs, ?_, ?_⟩
  · intro sel h
    exact selectAccum_ok_spec (sortDesc cs) minTotal sel h
  · intro hlt
    have hsum : amtSum (sortDesc cs) = amtSum cs := by
      unfold amtSum
      exact ((sortDesc_perm cs).map AnchoredCommitment.assetAmount).sum_eq
    show selectAccum minTotal (sortDesc cs) = .error .matchingAssetsNotFound
    rw [selectAccum_error_iff, hsum]
    exact hlt

/-- Witness for claim C6: a concrete selection that fails with
MatchingAssetsNotFound because the total amount is below the target. -/
theorem selectForAmount_preferMaxAmount_witness :
    SelectForAmount 10 [{ anchorPoint := 0, assetAmount := 3 }] .preferMaxAmount
      = .error .matchingAssetsNotFound :=
  (selectForAmount_preferMaxAmount 10
    [{ anchorPoint := 0, assetAmount := 3 }]).2.2.2 (by decide)

lemma upsertChecked_error_unchanged (C : Crypto) (c : AssetCommitment)
    (a : Asset) (e : CommitError) (c' : AssetCommitment)
    (h : upsertChecked C c a = (.error e, c')) : c' = c := by
  rw [upsertChecked] at h
  split at h
  · split at h <;> (injection h with h1 h2; exact h2.symm)
  · split at h
    · split at h
      · simp [upsertApply] at h
      · injection h with h1 h2
        exact h2.symm
    · simp [upsertApply] at h

/-- Claim C9: whenever Upsert returns a validation error (nil asset, asset
type mismatch, genesis or group-key mismatch, or invalid genesis
signature), the commitment is unchanged: the returned state, including its
tree root and its committed asset map, is the state before the call. -/
theorem upsert_error_unchanged (C : Crypto) (c : AssetCommitment)
    (a? : Option Asset) (e : CommitError) (c' : AssetCommitment)
    (h : c.Upsert C a? = (.error e, c')) : c' = c := by
  cases a? with
  | none =>
    rw [AssetCommitment.Upsert] at h
    injection h with h1 h2
    exact h2.symm
  | some a =>
    rw [AssetCommitment.Upsert] at h
    split at h
    · split at h
      · injection h with h1 h2
        exact h2.symm
      · exact upsertChecked_error_unchanged C c a e c' h
    · exact upsertChecked_error_unchanged C c a e c' h

/-- Witness for claim C9: upserting a nil asset into a concrete commitment
fails and leaves the commitment unchanged. -/
theorem upsert_error_unchanged_witness :
    (trivAC.Upsert wCryptoT none).2 = trivAC :=
  upsert_error_unchanged wCryptoT trivAC none .noAssets
    (trivAC.Upsert wCryptoT none).2 rfl

lemma checkAsset_none_iff (C : Crypto) (gen0 : Bytes) (a : Asset) :
    checkAsset C none gen0 a = none ↔
      a.groupKey = none ∧ C.genesisId a.genesis = gen0 := by
  obtain ⟨av, agen, aam, atype, ask, agkopt, arest⟩ := a
  rcases agkopt with _ | agk
  · have hred : checkAsset C none gen0 ⟨av, agen, aam, atype, ask, none, arest⟩
        = (if gen0 ≠ C.genesisId agen then some CommitError.genesisMismatch
           else none) := rfl
    rw [hred]
    by_cases hgen : gen0 = C.genesisId agen
    · rw [if_neg (by simp [hgen])]
      exact ⟨fun _ => ⟨rfl, hgen.symm⟩, fun _ => rfl⟩
    · rw [if_pos hgen]
      constructor
      · intro hcon
        exact absurd hcon (by simp)
      · rintro ⟨_, hgen2⟩
        exact absurd hgen2.symm hgen
  · have hred : checkAsset C none gen0 ⟨av, agen, aam, atype, ask, some agk, arest⟩
        = some CommitError.groupKeyMismatch := rfl
    rw [hred]
    constructor
    · intro hcon
      exact absurd hcon (by simp)
    · rintro ⟨hnone, _⟩
      exact absurd hnone (by simp)

lemma checkAsset_some_iff (C : Crypto) (gk : GroupKey) (gen0 : Bytes)
    (a : Asset) :
    checkAsset C (some gk) gen0 a = none ↔
      ∃ agk, a.groupKey = some agk ∧ agk.groupPubKey = gk.groupPubKey ∧
        C.verifySig a.genesis agk.sig gk.groupPubKey = true := by
  obtain ⟨av, agen, aam, atype, ask, agkopt, arest⟩ := a
  rcases agkopt with _ | agk
  · have hred : checkAsset C (some gk) gen0 ⟨av, agen, aam, atype, ask, none, arest⟩
        = some CommitError.groupKeyMismatch := rfl
    rw [hred]
    constructor
    · intro hcon
      exact absurd hcon (by simp)
    · rintro ⟨agk2, hag, _, _⟩
      exact absurd hag (by simp)
  · have hred : checkAsset C (some gk) gen0 ⟨av, agen, aam, atype, ask, some agk, arest⟩
        = (if gk.groupPubKey == agk.groupPubKey then
            (if C.verifySig agen agk.sig gk.groupPubKey then none
             else some CommitError.invalidGenesisSig)
           else some CommitError.groupKeyMismatch) := rfl
    rw [hred]
    by_cases hpub : gk.groupPubKey = agk.groupPubKey
    · rw [if_pos (by simp [hpub])]
      by_cases hsig : C.verifySig agen agk.sig gk.groupPubKey = true
      · rw [if_pos hsig]
        constructor
        · intro _
          exact ⟨agk, rfl, hpub.symm, hsig⟩
        · intro _
          rfl
      · rw [if_neg hsig]
        constructor
        · intro hcon
          exact absurd hcon (by simp)
        · rintro ⟨agk2, hag, hpub2, hsig2⟩
          have : agk = agk2 := by
            have := hag
            simp only [Option.some.injEq] at this
            exact this
          subst this
          exact absurd hsig2 hsig
    · rw [if_neg (by simp [hpub])]
      constructor
      · intro hcon
        exact absurd hcon (by simp)
      · rintro ⟨agk2, hag, hpub2, hsig2⟩
        have : agk = agk2 := by
          have := hag
          simp only [Option.some.injEq] at this
          exact this
        subst this
        exact absurd hpub2.symm hpub

lemma checkAsset_some_congr (C : Crypto) (gk gk' : GroupKey)
    (gen0 gen0' : Bytes) (a : Asset)
    (hpub : gk'.groupPubKey = gk.groupPubKey) :
    checkAsset C (some gk') gen0' a = checkAsset C (some gk) gen0 a := by
  obtain ⟨av, agen, aam, atype, ask, agkopt, arest⟩ := a
  rcases agkopt with _ | agk
  · rfl
  · have h1 : checkAsset C (some gk') gen0' ⟨av, agen, aam, atype, ask, some agk, arest⟩
        = (if gk'.groupPubKey == agk.groupPubKey then
            (if C.verifySig agen agk.sig gk'.groupPubKey then none
             else some CommitError.invalidGenesisSig)
           else some CommitError.groupKeyMismatch) := rfl
    have h2 : checkAsset C (some gk) gen0 ⟨av, agen, aam, atype, ask, some agk, arest⟩
        = (if gk.groupPubKey == agk.groupPubKey then
            (if C.verifySig agen agk.sig gk.groupPubKey then none
             else some CommitError.invalidGenesisSig)
           else some CommitError.groupKeyMismatch) := rfl
    rw [h1, h2, hpub]

lemma mapInsert_not_mem {α : Type} (m : List (Bytes × α)) (k : Bytes) (v : α)
    (h : k ∉ m.map Prod.fst) : mapInsert m k v = m ++ [(k, v)] := by
  rw [mapInsert, if_neg h]

lemma parseCommonLoop_ok_props (C : Crypto) (gk0 : Option GroupKey)
    (gen0 : Bytes) :
    ∀ (l : List Asset) (v : Fin 256) (m : List (Bytes × Asset))
      (r : Fin 256 × List (Bytes × Asset)),
      parseCommonLoop C gk0 gen0 l v m = .ok r →
        (∀ a ∈ l, checkAsset C gk0 gen0 a = none) ∧
        (l.map fun a => a.AssetCommitmentKey C).Nodup ∧
        (∀ a ∈ l, a.AssetCommitmentKey C ∉ m.map Prod.fst) ∧
        r.2 = m ++ l.map fun a => (a.AssetCommitmentKey C, a) := by
  intro l
  induction l with
  | nil =>
    intro v m r h
    rw [parseCommonLoop] at h
    cases h
    simp
  | cons a l ih =>
    intro v m r h
    rw [parseCommonLoop] at h
    rcases hchk : checkAsset C gk0 gen0 a with _ | e
    · rw [hchk] at h
      by_cases hk : a.AssetCommitmentKey C ∈ m.map Prod.fst
      · rw [if_pos hk] at h
        cases h
      · rw [if_neg hk] at h
        rw [mapInsert_not_mem m _ a hk] at h
        obtain ⟨hchkl, hnd, hfresh, hr⟩ := ih _ _ _ h
        have hmem : a.AssetCommitmentKey C
            ∈ (m ++ [(a.AssetCommitmentKey C, a)]).map Prod.fst := by
          simp
        refine ⟨?_, ?_, ?_, ?_⟩
        · intro x hx
          rcases List.mem_cons.mp hx with rfl | hx
          · exact hchk
          · exact hchkl x hx
        · rw [List.map_cons, List.nodup_cons]
          refine ⟨?_, hnd⟩
          intro hin
          obtain ⟨x, hx, hkey⟩ := List.mem_map.mp hin
          exact hfresh x hx (hkey ▸ hmem)
        · intro x hx
          rcases List.mem_cons.mp hx with rfl | hx
          · exact hk
          · intro hin
            apply hfresh x hx
            rw [List.map_append, List.mem_append]
            exact Or.inl hin
        · rw [hr, List.append_assoc]
          simp
    · rw [hchk] at h
      cases h

lemma parseCommonLoop_ok_of (C : Crypto) (gk0 : Option GroupKey)
    (gen0 : Bytes) :
    ∀ (l : List Asset) (v : Fin 256) (m : List (Bytes × Asset)),
      (∀ a ∈ l, checkAsset C gk0 gen0 a = none) →
      ((l.map fun a => a.AssetCommitmentKey C).Nodup) →
      (∀ a ∈ l, a.AssetCommitmentKey C ∉ m.map Prod.fst) →
      ∃ r, parseCommonLoop C gk0 gen0 l v m = .ok r ∧
        r.2 = m ++ l.map fun a => (a.AssetCommitmentKey C, a) := by
  intro l
  induction l with
  | nil =>
    intro v m _ _ _
    exact ⟨(v, m), by rw [parseCommonLoop], by simp⟩
  | cons a l ih =>
    intro v m hchk hnd hfresh
    have hchka := hchk a (by simp)
    have hka : a.AssetCommitmentKey C ∉ m.map Prod.fst := hfresh a (by simp)
    have hnotin : a.AssetCommitmentKey C ∉ l.map fun x => x.AssetCommitmentKey C :=
      (List.nodup_cons.mp (by simpa using hnd)).1
    have hfresh2 : ∀ x ∈ l, x.AssetCommitmentKey C
        ∉ (m ++ [(a.AssetCommitmentKey C, a)]).map Prod.fst := by
      intro x hx
      rw [List.map_append, List.mem_append]
      push_neg
      refine ⟨hfresh x (by simp [hx]), ?_⟩
      intro hin
      apply hnotin
      have hxa : x.AssetCommitmentKey C = a.AssetCommitmentKey C := by
        simpa using hin
      exact hxa ▸ List.mem_map_of_mem _ hx
    obtain ⟨r, hr, hr2⟩ := ih (if v < a.version then a.version else v)
      (m ++ [(a.AssetCommitmentKey C, a)])
      (fun x hx => hchk x (by simp [hx]))
      (List.nodup_cons.mp (by simpa using hnd)).2 hfresh2
    refine ⟨r, ?_, ?_⟩
    · rw [parseCommonLoop, hchka, if_neg hka, mapInsert_not_mem m _ a hka]
      exact hr
    · rw [hr2, List.append_assoc]
      simp

lemma commitmentIdOf_none (C : Crypto) (a0 : Asset) (h : a0.groupKey = none) :
    commitmentIdOf C a0 = C.genesisId a0.genesis := by
  rw [commitmentIdOf, h]

lemma commitmentIdOf_some (C : Crypto) (a0 : Asset) (gk : GroupKey)
    (h : a0.groupKey = some gk) :
    commitmentIdOf C a0 = C.sha256 (C.serializePub gk.groupPubKey) := by
  rw [commitmentIdOf, h]

lemma parseCommon_ok_props (C : Crypto) (assets : List Asset)
    (p : ParsedCommitment) (h : parseCommon C assets = .ok p) :
    ∃ a0 t, assets = a0 :: t ∧
      (∀ a ∈ assets, checkAsset C a0.groupKey (C.genesisId a0.genesis) a = none) ∧
      ((assets.map fun a => a.AssetCommitmentKey C).Nodup) ∧
      p.assetID = commitmentIdOf C a0 ∧
      p.assets = assets.map fun a => (a.AssetCommitmentKey C, a) := by
  rcases assets with _ | ⟨a0, t⟩
  · rw [parseCommon] at h
    cases h
  · rw [parseCommon] at h
    rcases hloop : parseCommonLoop C a0.groupKey (C.genesisId a0.genesis)
        (a0 :: t) 0 [] with e | r
    · rw [hloop] at h
      cases h
    · rw [hloop] at h
      simp only [Except.map] at h
      obtain ⟨hchk, hnd, _, hr2⟩ :=
        parseCommonLoop_ok_props C a0.groupKey (C.genesisId a0.genesis)
          (a0 :: t) 0 [] r hloop
      cases h
      exact ⟨a0, t, rfl, hchk, hnd, rfl, by simpa using hr2⟩

lemma parseCommon_ok_of (C : Crypto) (a0 : Asset) (t : List Asset)
    (hchk : ∀ a ∈ a0 :: t,
      checkAsset C a0.groupKey (C.genesisId a0.genesis) a = none)
    (hnd : (((a0 :: t).map fun a => a.AssetCommitmentKey C).Nodup)) :
    ∃ p, parseCommon C (a0 :: t) = .ok p ∧
      p.assetID = commitmentIdOf C a0 ∧
      p.assets = (a0 :: t).map fun a => (a.AssetCommitmentKey C, a) := by
  obtain ⟨r, hr, hr2⟩ := parseCommonLoop_ok_of C a0.groupKey
    (C.genesisId a0.genesis) (a0 :: t) 0 [] hchk hnd (by simp)
  refine ⟨{ version := r.1, assetID := commitmentIdOf C a0, assets := r.2 },
    ?_, rfl, by simpa using hr2⟩
  rw [parseCommon, hr]
  rfl

lemma newAssetCommitment_ok_iff (C : Crypto) (assets : List Asset)
    (c : AssetCommitment) :
    NewAssetCommitment C assets = .ok c ↔
      ∃ p, parseCommon C assets = .ok p ∧ c = buildCommitment C assets p := by
  rw [NewAssetCommitment]
  rcases h : parseCommon C assets with e | p
  · constructor
    · intro hcon
      exact absurd hcon (by simp [Except.map])
    · rintro ⟨p, hp, _⟩
      cases hp
  · constructor
    · intro hok
      simp only [Except.map] at hok
      refine ⟨p, rfl, ?_⟩
      cases hok
      rfl
    · rintro ⟨p2, hp2, rfl⟩
      cases hp2
      rfl

/-- Claim C1: for every non-empty list of assets accepted by
NewAssetCommitment, the identifier of the resulting commitment (its AssetID
field, which TapCommitmentKey returns) is the shared asset genesis ID when
the assets carry no group key, and sha256 of the schnorr-serialized group
public key when a group key is present. -/
theorem newAssetCommitment_assetID (C : Crypto) (assets : List Asset)
    (a0 : Asset) (c : AssetCommitment)
    (h0 : assets.head? = some a0)
    (hok : NewAssetCommitment C assets = .ok c) :
    c.TapCommitmentKey = c.assetID ∧
    (a0.groupKey = none → ∀ a ∈ assets, c.assetID = C.genesisId a.genesis) ∧
    (∀ gk, a0.groupKey = some gk →
      c.assetID = C.sha256 (C.serializePub gk.groupPubKey)) := by
  obtain ⟨p, hp, rfl⟩ := (newAssetCommitment_ok_iff C assets c).mp hok
  obtain ⟨b0, t, hsplit, hchk, hnd, hid, hassets⟩ :=
    parseCommon_ok_props C assets p hp
  have hb0 : b0 = a0 := by
    rw [hsplit] at h0
    simpa using h0
  subst hb0
  have hbuild : (buildCommitment C assets p).assetID = p.assetID := rfl
  refine ⟨rfl, ?_, ?_⟩
  · intro hgk a ha
    have hc := hchk a ha
    rw [hgk] at hc
    obtain ⟨-, hgen⟩ := (checkAsset_none_iff C _ a).mp hc
    rw [hbuild, hid, commitmentIdOf_none C b0 hgk]
    exact hgen.symm
  · intro gk hgk
    rw [hbuild, hid, commitmentIdOf_some C b0 gk hgk]

/-- Witness for claim C1 at a concrete single-asset commitment. -/
theorem newAssetCommitment_assetID_witness :
    ∃ c, NewAssetCommitment wCryptoT [wAsset] = .ok c ∧
      c.TapCommitmentKey = c.assetID ∧
      c.assetID = wCryptoT.genesisId wAsset.genesis := by
  obtain ⟨c, hc⟩ : ∃ c, NewAssetCommitment wCryptoT [wAsset] = .ok c := ⟨_, rfl⟩
  have h := newAssetCommitment_assetID wCryptoT [wAsset] wAsset c rfl hc
  exact ⟨c, hc, h.1, h.2.1 rfl wAsset (by simp)⟩

lemma checkAsset_some_badsig (C : Crypto) (gk0 : GroupKey) (gen0 : Bytes)
    (a : Asset) (agk : GroupKey) (hagk : a.groupKey = some agk)
    (hpub : agk.groupPubKey = gk0.groupPubKey)
    (hsig : C.verifySig a.genesis agk.sig gk0.groupPubKey = false) :
    checkAsset C (some gk0) gen0 a = some .invalidGenesisSig := by
  obtain ⟨av, agen, aam, atype, ask, agkopt, arest⟩ := a
  have hg : agkopt = some agk := hagk
  subst hg
  have hsig2 : C.verifySig agen agk.sig gk0.groupPubKey = false := hsig
  have hred : checkAsset C (some gk0) gen0 ⟨av, agen, aam, atype, ask, some agk, arest⟩
      = (if gk0.groupPubKey == agk.groupPubKey then
          (if C.verifySig agen agk.sig gk0.groupPubKey then none
           else some CommitError.invalidGenesisSig)
         else some CommitError.groupKeyMismatch) := rfl
  rw [hred, if_pos (by simp [hpub]), if_neg (by simp [hsig2])]

lemma isEqualGroup_some_iff (gk0 : GroupKey) (g : Option GroupKey) :
    isEqualGroup (some gk0) g = true ↔
      ∃ agk, g = some agk ∧ agk.groupPubKey = gk0.groupPubKey := by
  rcases g with _ | agk
  · simp [isEqualGroup]
  · constructor
    · intro h
      have hp : gk0.groupPubKey = agk.groupPubKey := by
        simpa [isEqualGroup] using h
      exact ⟨agk, rfl, hp.symm⟩
    · rintro ⟨agk2, hag, hp⟩
      rw [Option.some.injEq] at hag
      subst hag
      simp [isEqualGroup, hp]

lemma parseCommonLoop_error_badsig (C : Crypto) (gk0 : GroupKey)
    (gen0 : Bytes) :
    ∀ (l : List Asset) (v : Fin 256) (m : List (Bytes × Asset)),
      (∀ a ∈ l, isEqualGroup (some gk0) a.groupKey = true) →
      ((l.map fun a => a.AssetCommitmentKey C).Nodup) →
      (∀ a ∈ l, a.AssetCommitmentKey C ∉ m.map Prod.fst) →
      (∃ a ∈ l, ∃ agk, a.groupKey = some agk ∧
        C.verifySig a.genesis agk.sig gk0.groupPubKey = false) →
      parseCommonLoop C (some gk0) gen0 l v m = .error .invalidGenesisSig := by
  intro l
  induction l with
  | nil =>
    intro v m _ _ _ hbad
    obtain ⟨a, ha, _⟩ := hbad
    exact absurd ha (List.not_mem_nil a)
  | cons a l ih =>
    intro v m hgrp hnd hfresh hbad
    obtain ⟨agk, hagk, hpub⟩ :=
      (isEqualGroup_some_iff gk0 a.groupKey).mp (hgrp a (by simp))
    by_cases hsig : C.verifySig a.genesis agk.sig gk0.groupPubKey = true
    · have hchka : checkAsset C (some gk0) gen0 a = none :=
        (checkAsset_some_iff C gk0 gen0 a).mpr ⟨agk, hagk, hpub, hsig⟩
      have hka : a.AssetCommitmentKey C ∉ m.map Prod.fst := hfresh a (by simp)
      have hnotin : a.AssetCommitmentKey C
          ∉ l.map fun x => x.AssetCommitmentKey C :=
        (List.nodup_cons.mp (by simpa using hnd)).1
      have hfresh2 : ∀ x ∈ l, x.AssetCommitmentKey C
          ∉ (m ++ [(a.AssetCommitmentKey C, a)]).map Prod.fst := by
        intro x hx
        rw [List.map_append, List.mem_append]
        push_neg
        refine ⟨hfresh x (by simp [hx]), ?_⟩
        intro hin
        apply hnotin
        have hxa : x.AssetCommitmentKey C = a.AssetCommitmentKey C := by
          simpa using hin
        exact hxa ▸ List.mem_map_of_mem _ hx
      have hbad2 : ∃ x ∈ l, ∃ xagk, x.groupKey = some xagk ∧
          C.verifySig x.genesis xagk.sig gk0.groupPubKey = false := by
        obtain ⟨x, hx, xagk, hxagk, hxsig⟩ := hbad
        rcases List.mem_cons.mp hx with rfl | hx
        · have : agk = xagk := by
            rw [hagk, Option.some.injEq] at hxagk
            exact hxagk
          subst this
          rw [hsig] at hxsig
          cases hxsig
        · exact ⟨x, hx, xagk, hxagk, hxsig⟩
      rw [parseCommonLoop, hchka, if_neg hka, mapInsert_not_mem m _ a hka]
      exact ih _ _ (fun x hx => hgrp x (by simp [hx]))
        (List.nodup_cons.mp (by simpa using hnd)).2 hfresh2 hbad2
    · have hsigf : C.verifySig a.genesis agk.sig gk0.groupPubKey = false :=
        Bool.eq_false_iff.mpr hsig
      have hchka : checkAsset C (some gk0) gen0 a
          = some CommitError.invalidGenesisSig :=
        checkAsset_some_badsig C gk0 gen0 a agk hagk hpub hsigf
      rw [parseCommonLoop, hchka]

lemma upsertChecked_badsig_not_ok (C : Crypto) (c : AssetCommitment)
    (a : Asset) (agk : GroupKey) (hagk : a.groupKey = some agk)
    (hsig : ¬ C.verifySig a.genesis agk.sig agk.groupPubKey = true)
    (u : Unit) (c' : AssetCommitment) :
    upsertChecked C c a ≠ (.ok u, c') := by
  rw [upsertChecked]
  split
  · split
    · intro hcon
      injection hcon with h1 h2
      cases h1
    · intro hcon
      injection hcon with h1 h2
      cases h1
  · split
    case h_1 agk2 heq =>
      have hveq : agk2 = agk := by
        rw [hagk, Option.some.injEq] at heq
        exact heq.symm
      subst hveq
      split
      case isTrue hv => exact absurd hv hsig
      case isFalse hv =>
        intro hcon
        injection hcon with h1 h2
        cases h1
    case h_2 heq =>
      rw [hagk] at heq
      cases heq

lemma upsertChecked_badsig_error (C : Crypto) (c : AssetCommitment)
    (a : Asset) (agk : GroupKey) (hagk : a.groupKey = some agk)
    (hkey : a.TapCommitmentKey C = c.assetID)
    (hsig : C.verifySig a.genesis agk.sig agk.groupPubKey = false) :
    upsertChecked C c a = (.error .invalidGenesisSig, c) := by
  obtain ⟨av, agen, aam, atype, ask, agkopt, arest⟩ := a
  have hg : agkopt = some agk := hagk
  subst hg
  have hkey2 : Asset.TapCommitmentKey C ⟨av, agen, aam, atype, ask, some agk, arest⟩
      = c.assetID := hkey
  have hsig2 : C.verifySig agen agk.sig agk.groupPubKey = false := hsig
  have hred : upsertChecked C c ⟨av, agen, aam, atype, ask, some agk, arest⟩
      = (if Asset.TapCommitmentKey C ⟨av, agen, aam, atype, ask, some agk, arest⟩
            ≠ c.assetID then
          (.error CommitError.groupKeyMismatch, c)
         else if C.verifySig agen agk.sig agk.groupPubKey then
           upsertApply C c ⟨av, agen, aam, atype, ask, some agk, arest⟩
         else (.error CommitError.invalidGenesisSig, c)) := rfl
  rw [hred, if_neg (by simp [hkey2]), if_neg (by simp [hsig2])]

/-- Claim C2 (counterexample): a list of grouped assets in which an asset
with an invalid genesis signature is preceded by a duplicate commitment key
fails with the duplicate-script-key error, not with the
invalid-genesis-signature error, although not every signature verifies. -/
theorem newAssetCommitment_groupSig_cex :
    [cexB, cexB2, cexC].head? = some cexB ∧
    cexB.groupKey = some { groupPubKey := 7, sig := 1 } ∧
    (∃ a ∈ [cexB, cexB2, cexC], ∃ agk, a.groupKey = some agk ∧
      cexCrypto.verifySig a.genesis agk.sig (7 : Nat) = false) ∧
    NewAssetCommitment cexCrypto [cexB, cexB2, cexC]
      = .error (.duplicateScriptKey [0, 5]) ∧
    (∀ k, (CommitError.duplicateScriptKey k) ≠ .invalidGenesisSig) := by
  refine ⟨rfl, rfl, ?_, rfl, ?_⟩
  · refine ⟨cexC, by simp, { groupPubKey := 7, sig := 1 }, rfl, rfl⟩
  · intro k hcon
    cases hcon

/-- Claim C2 (amended): NewAssetCommitment on a list whose first asset
carries a group key succeeds only if every asset carries a Schnorr
signature over its own genesis that verifies under the group public key;
when every asset matches the group and the commitment keys are pairwise
distinct, an invalid signature makes it fail with the
invalid-genesis-signature error; and Upsert of a grouped asset performs the
same signature check (under the asset's own group public key). -/
theorem newAssetCommitment_groupSig (C : Crypto) (assets : List Asset)
    (a0 : Asset) (gk0 : GroupKey)
    (h0 : assets.head? = some a0) (hgk : a0.groupKey = some gk0) :
    (∀ c, NewAssetCommitment C assets = .ok c → ∀ a ∈ assets,
      ∃ agk, a.groupKey = some agk ∧
        C.verifySig a.genesis agk.sig gk0.groupPubKey = true) ∧
    ((∀ a ∈ assets, isEqualGroup (some gk0) a.groupKey = true) →
     ((assets.map fun a => a.AssetCommitmentKey C).Nodup) →
     (∃ a ∈ assets, ∃ agk, a.groupKey = some agk ∧
        C.verifySig a.genesis agk.sig gk0.groupPubKey = false) →
     NewAssetCommitment C assets = .error .invalidGenesisSig) ∧
    (∀ (c : AssetCommitment) (a : Asset) (agk : GroupKey),
      a.groupKey = some agk →
      (∀ u c', c.Upsert C (some a) = (.ok u, c') →
        C.verifySig a.genesis agk.sig agk.groupPubKey = true) ∧
      ((∀ k r rest, c.assets = (k, r) :: rest → r.assetType = a.assetType) →
       a.TapCommitmentKey C = c.assetID →
       C.verifySig a.genesis agk.sig agk.groupPubKey = false →
       c.Upsert C (some a) = (.error .invalidGenesisSig, c))) := by
  rcases assets with _ | ⟨b0, t⟩
  · cases h0
  · have hb0 : b0 = a0 := by simpa using h0
    subst hb0
    refine ⟨?_, ?_, ?_⟩
    · intro c hok a ha
      obtain ⟨p, hp, -⟩ := (newAssetCommitment_ok_iff C (b0 :: t) c).mp hok
      obtain ⟨b0', t', hsplit, hchk, -, -, -⟩ :=
        parseCommon_ok_props C (b0 :: t) p hp
      have hb0' : b0' = b0 := by
        have := congrArg List.head? hsplit
        simpa using this.symm
      subst hb0'
      have hc := hchk a ha
      rw [hgk] at hc
      obtain ⟨agk, hagk, hpub, hsig⟩ := (checkAsset_some_iff C gk0 _ a).mp hc
      exact ⟨agk, hagk, hsig⟩
    · intro hgrp hnd hbad
      have hloop := parseCommonLoop_error_badsig C gk0
        (C.genesisId b0.genesis) (b0 :: t) 0 [] hgrp hnd (by simp) hbad
      rw [NewAssetCommitment, parseCommon, hgk, hloop]
      rfl
    · intro c a agk hagk
      constructor
      · intro u c' h
        by_contra hsig
        rw [AssetCommitment.Upsert] at h
        rcases hca : c.assets with _ | ⟨⟨k0, r0⟩, rest⟩
        · rw [hca] at h
          exact upsertChecked_badsig_not_ok C c a agk hagk hsig u c' h
        · rw [hca] at h
          have h2 : (if r0.assetType ≠ a.assetType then
              ((.error CommitError.assetTypeMismatch, c) :
                Except CommitError Unit × AssetCommitment)
             else upsertChecked C c a) = (.ok u, c') := h
          by_cases htype : r0.assetType ≠ a.assetType
          · rw [if_pos htype] at h2
            injection h2 with h1 h3
            cases h1
          · rw [if_neg htype] at h2
            exact upsertChecked_badsig_not_ok C c a agk hagk hsig u c' h2
      · intro htype hkey hsig
        rw [AssetCommitment.Upsert]
        rcases hca : c.assets with _ | ⟨⟨k0, r0⟩, rest⟩
        · exact upsertChecked_badsig_error C c a agk hagk hkey hsig
        · show (if r0.assetType ≠ a.assetType then
              ((.error CommitError.assetTypeMismatch, c) :
                Except CommitError Unit × AssetCommitment)
             else upsertChecked C c a) = (.error .invalidGenesisSig, c)
          rw [if_neg (by simp [htype k0 r0 rest hca])]
          exact upsertChecked_badsig_error C c a agk hagk hkey hsig

/-- Witness for the amended claim C2: a concrete single grouped asset whose
signature is rejected makes NewAssetCommitment fail with the
invalid-genesis-signature error. -/
theorem newAssetCommitment_groupSig_witness :
    NewAssetCommitment wCryptoF [wgAsset] = .error .invalidGenesisSig :=
  (newAssetCommitment_groupSig wCryptoF [wgAsset] wgAsset
    { groupPubKey := 7, sig := 1 } rfl rfl).2.1
    (by intro a ha; rw [List.mem_singleton.mp ha]; rfl)
    (by simp)
    ⟨wgAsset, by simp, { groupPubKey := 7, sig := 1 }, rfl, rfl⟩

lemma parseCommonLoop_error_dup_mem (C : Crypto) (gk0 : Option GroupKey)
    (gen0 : Bytes) :
    ∀ (l : List Asset) (v : Fin 256) (m : List (Bytes × Asset)),
      (∀ a ∈ l, checkAsset C gk0 gen0 a = none) →
      (∃ a ∈ l, a.AssetCommitmentKey C ∈ m.map Prod.fst) →
      ∃ k, parseCommonLoop C gk0 gen0 l v m = .error (.duplicateScriptKey k) := by
  intro l
  induction l with
  | nil =>
    intro v m _ hbad
    obtain ⟨a, ha, _⟩ := hbad
    exact absurd ha (List.not_mem_nil a)
  | cons a l ih =>
    intro v m hchk hbad
    have hchka := hchk a (by simp)
    by_cases hk : a.AssetCommitmentKey C ∈ m.map Prod.fst
    · exact ⟨a.AssetCommitmentKey C,
        by rw [parseCommonLoop, hchka, if_pos hk]⟩
    · have hbad2 : ∃ x ∈ l, x.AssetCommitmentKey C
          ∈ (m ++ [(a.AssetCommitmentKey C, a)]).map Prod.fst := by
        obtain ⟨x, hx, hxk⟩ := hbad
        rcases List.mem_cons.mp hx with rfl | hx
        · exact absurd hxk hk
        · refine ⟨x, hx, ?_⟩
          rw [List.map_append, List.mem_append]
          exact Or.inl hxk
      obtain ⟨k, hk'⟩ := ih (if v < a.version then a.version else v)
        (m ++ [(a.AssetCommitmentKey C, a)])
        (fun x hx => hchk x (by simp [hx])) hbad2
      exact ⟨k, by rw [parseCommonLoop, hchka, if_neg hk,
        mapInsert_not_mem m _ a hk]; exact hk'⟩

lemma parseCommonLoop_error_dup (C : Crypto) (gk0 : Option GroupKey)
    (gen0 : Bytes) :
    ∀ (l : List Asset) (v : Fin 256) (m : List (Bytes × Asset)),
      (∀ a ∈ l, checkAsset C gk0 gen0 a = none) →
      (∀ a ∈ l, a.AssetCommitmentKey C ∉ m.map Prod.fst) →
      ¬ ((l.map fun a => a.AssetCommitmentKey C).Nodup) →
      ∃ k, parseCommonLoop C gk0 gen0 l v m = .error (.duplicateScriptKey k) := by
  intro l
  induction l with
  | nil =>
    intro v m _ _ hnodup
    exact absurd List.nodup_nil hnodup
  | cons a l ih =>
    intro v m hchk hfresh hnodup
    have hchka := hchk a (by simp)
    have hka : a.AssetCommitmentKey C ∉ m.map Prod.fst := hfresh a (by simp)
    by_cases hdup : a.AssetCommitmentKey C ∈ l.map fun x => x.AssetCommitmentKey C
    · obtain ⟨x, hx, hxk⟩ := List.mem_map.mp hdup
      have hbad : ∃ x ∈ l, x.AssetCommitmentKey C
          ∈ (m ++ [(a.AssetCommitmentKey C, a)]).map Prod.fst := by
        refine ⟨x, hx, ?_⟩
        rw [List.map_append, List.mem_append]
        right
        simp [hxk]
      obtain ⟨k, hk'⟩ := parseCommonLoop_error_dup_mem C gk0 gen0 l
        (if v < a.version then a.version else v)
        (m ++ [(a.AssetCommitmentKey C, a)])
        (fun x hx => hchk x (by simp [hx])) hbad
      exact ⟨k, by rw [parseCommonLoop, hchka, if_neg hka,
        mapInsert_not_mem m _ a hka]; exact hk'⟩
    · have htail : ¬ ((l.map fun x => x.AssetCommitmentKey C).Nodup) := by
        intro hnd2
        exact hnodup (by rw [List.map_cons]; exact List.nodup_cons.mpr ⟨hdup, hnd2⟩)
      have hfresh2 : ∀ x ∈ l, x.AssetCommitmentKey C
          ∉ (m ++ [(a.AssetCommitmentKey C, a)]).map Prod.fst := by
        intro x hx
        rw [List.map_append, List.mem_append]
        push_neg
        refine ⟨hfresh x (by simp [hx]), ?_⟩
        intro hin
        apply hdup
        have hxa : x.AssetCommitmentKey C = a.AssetCommitmentKey C := by
          simpa using hin
        exact hxa ▸ List.mem_map_of_mem _ hx
      obtain ⟨k, hk'⟩ := ih (if v < a.version then a.version else v)
        (m ++ [(a.AssetCommitmentKey C, a)])
        (fun x hx => hchk x (by simp [hx])) hfresh2 htail
      exact ⟨k, by rw [parseCommonLoop, hchka, if_neg hka,
        mapInsert_not_mem m _ a hka]; exact hk'⟩

lemma dup_not_nodup (C : Crypto) (l1 l2 l3 : List Asset) (x y : Asset)
    (h : x.AssetCommitmentKey C = y.AssetCommitmentKey C) :
    ¬ (((l1 ++ x :: l2 ++ y :: l3).map fun a => a.AssetCommitmentKey C).Nodup) := by
  intro hnd
  rw [List.map_append, List.nodup_append] at hnd
  obtain ⟨-, -, hdisj⟩ := hnd
  refine hdisj (a := x.AssetCommitmentKey C) ?_ ?_
  · rw [List.map_append, List.mem_append]
    right
    simp
  · rw [h, List.map_cons]
    simp

/-- Claim C5 (counterexample): a list containing two distinct grouped
entries with the same asset commitment key (same genesis and script key,
different amounts) whose signatures are rejected fails with the
invalid-genesis-signature error and not with the duplicate-script-key
error. -/
theorem newAssetCommitment_duplicate_cex :
    cexB ≠ cexB2 ∧
    cexB.AssetCommitmentKey wCryptoF = cexB2.AssetCommitmentKey wCryptoF ∧
    NewAssetCommitment wCryptoF [cexB, cexB2] = .error .invalidGenesisSig ∧
    (∀ k, (CommitError.invalidGenesisSig : CommitError)
      ≠ .duplicateScriptKey k) := by
  refine ⟨by decide, rfl, rfl, ?_⟩
  intro k hcon
  cases hcon

/-- Claim C5 (amended): for every list of assets containing two entries at
distinct positions with the same AssetCommitmentKey, NewAssetCommitment
fails and no commitment is returned; when additionally every asset passes
the per-asset group, genesis and signature checks, the error is the
duplicate-script-key error. -/
theorem newAssetCommitment_duplicate (C : Crypto) (l1 l2 l3 : List Asset)
    (x y : Asset)
    (hkey : x.AssetCommitmentKey C = y.AssetCommitmentKey C) :
    (∀ c, NewAssetCommitment C (l1 ++ x :: l2 ++ y :: l3) = .ok c → False) ∧
    (∀ a0 t, l1 ++ x :: l2 ++ y :: l3 = a0 :: t →
      (∀ a ∈ l1 ++ x :: l2 ++ y :: l3,
        checkAsset C a0.groupKey (C.genesisId a0.genesis) a = none) →
      ∃ k, NewAssetCommitment C (l1 ++ x :: l2 ++ y :: l3)
        = .error (.duplicateScriptKey k)) := by
  constructor
  · intro c hok
    obtain ⟨p, hp, -⟩ :=
      (newAssetCommitment_ok_iff C (l1 ++ x :: l2 ++ y :: l3) c).mp hok
    obtain ⟨-, -, -, -, hnd, -, -⟩ :=
      parseCommon_ok_props C (l1 ++ x :: l2 ++ y :: l3) p hp
    exact dup_not_nodup C l1 l2 l3 x y hkey hnd
  · intro a0 t hsplit hchk
    rw [hsplit] at hchk
    obtain ⟨k, hk⟩ := parseCommonLoop_error_dup C a0.groupKey
      (C.genesisId a0.genesis) (a0 :: t) 0 [] hchk (by simp)
      (by rw [← hsplit]; exact dup_not_nodup C l1 l2 l3 x y hkey)
    exact ⟨k, by rw [hsplit, NewAssetCommitment, parseCommon, hk]; rfl⟩

/-- Witness for the amended claim C5: a concrete two-element list with the
same entry twice fails with the duplicate-script-key error. -/
theorem newAssetCommitment_duplicate_witness :
    ∃ k, NewAssetCommitment wCryptoT [wAsset, wAsset]
      = .error (.duplicateScriptKey k) :=
  (newAssetCommitment_duplicate wCryptoT [] [] [] wAsset wAsset rfl).2
    wAsset [wAsset] rfl (by decide)

lemma bitsAux_length : ∀ (w n : Nat), (bitsAux w n).length = w := by
  intro w
  induction w with
  | zero => intro n; rfl
  | succ w ih =>
    intro n
    rw [bitsAux, List.length_cons, ih]

lemma bitsAux_inj : ∀ (w n1 n2 : Nat), n1 < 2 ^ w → n2 < 2 ^ w →
    bitsAux w n1 = bitsAux w n2 → n1 = n2 := by
  intro w
  induction w with
  | zero =>
    intro n1 n2 h1 h2 _
    simp only [pow_zero, Nat.lt_one_iff] at h1 h2
    rw [h1, h2]
  | succ w ih =>
    intro n1 n2 h1 h2 heq
    rw [bitsAux, bitsAux] at heq
    have hhead : (n1 % 2 == 1) = (n2 % 2 == 1) :=
      (List.cons.injEq _ _ _ _).mp heq |>.1
    have htail : bitsAux w (n1 / 2) = bitsAux w (n2 / 2) :=
      (List.cons.injEq _ _ _ _).mp heq |>.2
    have hd1 : n1 / 2 < 2 ^ w := by
      rw [pow_succ] at h1
      omega
    have hd2 : n2 / 2 < 2 ^ w := by
      rw [pow_succ] at h2
      omega
    have hdiv := ih (n1 / 2) (n2 / 2) hd1 hd2 htail
    have hmod : n1 % 2 = n2 % 2 := by
      rcases Nat.mod_two_eq_zero_or_one n1 with hm1 | hm1 <;>
        rcases Nat.mod_two_eq_zero_or_one n2 with hm2 | hm2 <;>
          simp [hm1, hm2] at hhead ⊢
    omega

lemma bytesBits_length : ∀ (k : Bytes), (bytesBits k).length = 8 * k.length := by
  intro k
  induction k with
  | nil => rfl
  | cons b t ih =>
    rw [bytesBits, List.length_append, bitsAux_length, ih, List.length_cons]
    ring

lemma bytesBits_inj : ∀ (k1 k2 : Bytes), k1.length = k2.length →
    (∀ b ∈ k1, b < 256) → (∀ b ∈ k2, b < 256) →
    bytesBits k1 = bytesBits k2 → k1 = k2 := by
  intro k1
  induction k1 with
  | nil =>
    intro k2 hlen _ _ _
    cases k2 with
    | nil => rfl
    | cons b t => cases hlen
  | cons b1 t1 ih =>
    intro k2 hlen hb1 hb2 heq
    cases k2 with
    | nil => cases hlen
    | cons b2 t2 =>
      rw [bytesBits, bytesBits] at heq
      have hlens : (bitsAux 8 b1).length = (bitsAux 8 b2).length := by
        rw [bitsAux_length, bitsAux_length]
      obtain ⟨hpre, hsuf⟩ := List.append_inj heq hlens
      have hb : b1 = b2 := by
        apply bitsAux_inj 8 b1 b2
        · exact hb1 b1 (by simp)
        · exact hb2 b2 (by simp)
        · exact hpre
      have ht : t1 = t2 := by
        apply ih t2
        · simpa using hlen
        · exact fun x hx => hb1 x (by simp [hx])
        · exact fun x hx => hb2 x (by simp [hx])
        · exact hsuf
      rw [hb, ht]

lemma path256_length (k : Bytes) : (path256 k).length = 256 := by
  rw [path256, List.length_take, List.length_append, List.length_replicate]
  omega

lemma path256_eq_of_len32 (k : Bytes) (hlen : k.length = 32) :
    path256 k = bytesBits k := by
  have hb : (bytesBits k).length = 256 := by
    rw [bytesBits_length, hlen]
  rw [path256, ← hb, List.take_left]

lemma path256_inj (k1 k2 : Bytes) (h1 : k1.length = 32) (h2 : k2.length = 32)
    (hv1 : ∀ b ∈ k1, b < 256) (hv2 : ∀ b ∈ k2, b < 256)
    (heq : path256 k1 = path256 k2) : k1 = k2 := by
  rw [path256_eq_of_len32 k1 h1, path256_eq_of_len32 k2 h2] at heq
  exact bytesBits_inj k1 k2 (by rw [h1, h2]) hv1 hv2 heq

lemma childEntries_length (b : Bool) (h : Nat)
    (es : List (List Bool × LeafNode))
    (hlen : ∀ e ∈ es, e.1.length = h + 1) :
    ∀ e ∈ childEntries b es, e.1.length = h := by
  intro e he
  obtain ⟨x, hx, hfx⟩ := List.mem_filterMap.mp he
  rcases hp : x.1 with _ | ⟨b', p⟩
  · rw [hp] at hfx
    cases hfx
  · rw [hp] at hfx
    have hfx2 : (if b' = b then some (p, x.2) else none) = some e := hfx
    by_cases hb : b' = b
    · rw [if_pos hb, Option.some.injEq] at hfx2
      subst hfx2
      have hxl := hlen x hx
      rw [hp, List.length_cons] at hxl
      simpa using hxl
    · rw [if_neg hb] at hfx2
      cases hfx2

lemma childEntries_pairwise (b : Bool) (es : List (List Bool × LeafNode))
    (hp : es.Pairwise fun u v => u.1 ≠ v.1) :
    (childEntries b es).Pairwise fun u v => u.1 ≠ v.1 := by
  rw [childEntries, List.pairwise_filterMap]
  refine hp.imp ?_
  intro u v huv b1 hb1 b2 hb2
  rw [Option.mem_def] at hb1 hb2
  rcases hu : u.1 with _ | ⟨bu, pu⟩
  · rw [hu] at hb1
    cases hb1
  · rcases hv : v.1 with _ | ⟨bv, pv⟩
    · rw [hv] at hb2
      cases hb2
    · rw [hu] at hb1
      rw [hv] at hb2
      have hb1' : (if bu = b then some (pu, u.2) else none) = some b1 := hb1
      have hb2' : (if bv = b then some (pv, v.2) else none) = some b2 := hb2
      by_cases h1 : bu = b
      · by_cases h2 : bv = b
        · rw [if_pos h1, Option.some.injEq] at hb1'
          rw [if_pos h2, Option.some.injEq] at hb2'
          subst hb1'
          subst hb2'
          intro hpp
          apply huv
          have hpupv : pu = pv := hpp
          rw [hu, hv, h1, h2, hpupv]
        · rw [if_neg h2] at hb2'
          cases hb2'
      · rw [if_neg h1] at hb1'
        cases hb1'

lemma subNode_perm (C : Crypto) :
    ∀ (h : Nat) (es1 es2 : List (List Bool × LeafNode)),
      es1.Perm es2 →
      (∀ e ∈ es1, e.1.length = h) →
      es1.Pairwise (fun u v => u.1 ≠ v.1) →
      subNode C h es1 = subNode C h es2 := by
  intro h
  induction h with
  | zero =>
    intro es1 es2 hperm hlen hpw
    rcases es1 with _ | ⟨e1, t1⟩
    · rw [List.Perm.eq_nil hperm.symm]
    · rcases t1 with _ | ⟨e2, t2⟩
      · rw [List.perm_singleton.mp hperm.symm]
      · exfalso
        have h1 : e1.1 = [] := List.length_eq_zero.mp (hlen e1 (by simp))
        have h2 : e2.1 = [] := List.length_eq_zero.mp (hlen e2 (by simp))
        have hne := (List.pairwise_cons.mp hpw).1 e2 (by simp)
        rw [h1, h2] at hne
        exact hne rfl
  | succ h ih =>
    intro es1 es2 hperm hlen hpw
    rcases es1 with _ | ⟨e1, t1⟩
    · rw [List.Perm.eq_nil hperm.symm]
    · rcases hes2 : es2 with _ | ⟨e2, t2⟩
      · rw [hes2] at hperm
        exact absurd (List.Perm.eq_nil hperm) (by simp)
      · subst hes2
        rw [subNode, subNode]
        have hL := ih (childEntries false (e1 :: t1)) (childEntries false (e2 :: t2))
          (hperm.filterMap _) (childEntries_length false h _ hlen)
          (childEntries_pairwise false _ hpw)
        have hR := ih (childEntries true (e1 :: t1)) (childEntries true (e2 :: t2))
          (hperm.filterMap _) (childEntries_length true h _ hlen)
          (childEntries_pairwise true _ hpw)
        rw [hL, hR]

lemma buildStore_eq (C : Crypto) :
    ∀ (l : List Asset) (m : List (Bytes × LeafNode)),
      (∀ a ∈ l, a.AssetCommitmentKey C ∉ m.map Prod.fst) →
      ((l.map fun a => a.AssetCommitmentKey C).Nodup) →
      l.foldl (fun s a => mapInsert s (a.AssetCommitmentKey C) (a.Leaf C)) m
        = m ++ l.map fun a => (a.AssetCommitmentKey C, a.Leaf C) := by
  intro l
  induction l with
  | nil =>
    intro m _ _
    simp
  | cons a l ih =>
    intro m hfresh hnd
    have hka : a.AssetCommitmentKey C ∉ m.map Prod.fst := hfresh a (by simp)
    have hnotin : a.AssetCommitmentKey C
        ∉ l.map fun x => x.AssetCommitmentKey C :=
      (List.nodup_cons.mp (by simpa using hnd)).1
    have hfresh2 : ∀ x ∈ l, x.AssetCommitmentKey C
        ∉ (m ++ [(a.AssetCommitmentKey C, a.Leaf C)]).map Prod.fst := by
      intro x hx
      rw [List.map_append, List.mem_append]
      push_neg
      refine ⟨hfresh x (by simp [hx]), ?_⟩
      intro hin
      apply hnotin
      have hxa : x.AssetCommitmentKey C = a.AssetCommitmentKey C := by
        simpa using hin
      exact hxa ▸ List.mem_map_of_mem _ hx
    rw [List.foldl_cons, mapInsert_not_mem m _ _ hka,
      ih (m ++ [(a.AssetCommitmentKey C, a.Leaf C)]) hfresh2
        (List.nodup_cons.mp (by simpa using hnd)).2,
      List.append_assoc]
    simp

lemma store_entry_len (C : Crypto) (hwf : CryptoWF C) (l : List Asset) :
    ∀ e ∈ l.map fun a => (a.AssetCommitmentKey C, a.Leaf C),
      e.1.length = 32 := by
  intro e he
  obtain ⟨a, ha, rfl⟩ := List.mem_map.mp he
  exact (hwf _).1

lemma store_entry_val (C : Crypto) (hwf : CryptoWF C) (l : List Asset) :
    ∀ e ∈ l.map fun a => (a.AssetCommitmentKey C, a.Leaf C),
      ∀ b ∈ e.1, b < 256 := by
  intro e he
  obtain ⟨a, ha, rfl⟩ := List.mem_map.mp he
  exact (hwf _).2

lemma treeRootOf_perm (C : Crypto) (s1 s2 : List (Bytes × LeafNode))
    (hperm : s1.Perm s2)
    (hlen : ∀ e ∈ s1, e.1.length = 32)
    (hval : ∀ e ∈ s1, ∀ b ∈ e.1, b < 256)
    (hnd : (s1.map Prod.fst).Nodup) :
    treeRootOf C s1 = treeRootOf C s2 := by
  have hpe : (pathEntries s1).Perm (pathEntries s2) := hperm.map _
  have hpelen : ∀ e ∈ pathEntries s1, e.1.length = 255 + 1 := by
    intro e he
    obtain ⟨x, hx, rfl⟩ := List.mem_map.mp he
    exact path256_length x.1
  have h1 : s1.Pairwise fun u v => u.1 ≠ v.1 := List.pairwise_map.mp hnd
  have hpepw : (pathEntries s1).Pairwise fun u v => u.1 ≠ v.1 := by
    rw [pathEntries, List.pairwise_map]
    refine List.Pairwise.imp_of_mem ?_ h1
    intro u v hu hv huv hpp
    exact huv (path256_inj u.1 v.1 (hlen u hu) (hlen v hv)
      (hval u hu) (hval v hv) hpp)
  rw [treeRootOf, treeRootOf]
  have hL := subNode_perm C 255 (childEntries false (pathEntries s1))
    (childEntries false (pathEntries s2)) (hpe.filterMap _)
    (childEntries_length false 255 _ hpelen)
    (childEntries_pairwise false _ hpepw)
  have hR := subNode_perm C 255 (childEntries true (pathEntries s1))
    (childEntries true (pathEntries s2)) (hpe.filterMap _)
    (childEntries_length true 255 _ hpelen)
    (childEntries_pairwise true _ hpepw)
  rw [hL, hR]

/-- Claim C4: for every valid list of related assets and every permutation
of that list, NewAssetCommitment succeeds on the permutation as well and
produces the same MS-SMT tree root and the same Root hash: the committed
root depends only on the set of key-leaf pairs, not on insertion order.
The hypothesis CryptoWF records that the external sha256 returns 32-byte
digests, as its Go type guarantees. -/
theorem newAssetCommitment_perm (C : Crypto) (hwf : CryptoWF C)
    (l1 l2 : List Asset) (c1 : AssetCommitment)
    (hok : NewAssetCommitment C l1 = .ok c1) (hperm : l1.Perm l2) :
    ∃ c2, NewAssetCommitment C l2 = .ok c2 ∧
      c2.treeRoot = c1.treeRoot ∧ c2.Root C = c1.Root C := by
  obtain ⟨p1, hp1, rfl⟩ := (newAssetCommitment_ok_iff C l1 c1).mp hok
  obtain ⟨a0, t1, hsplit1, hchk1, hnd1, hid1, hassets1⟩ :=
    parseCommon_ok_props C l1 p1 hp1
  subst hsplit1
  rcases l2 with _ | ⟨b0, t2⟩
  · exact absurd (List.Perm.eq_nil hperm) (by simp)
  · have hb0mem : b0 ∈ a0 :: t1 := hperm.mem_iff.mpr (by simp)
    have hchkb0 := hchk1 b0 hb0mem
    have hchk2 : ∀ a ∈ b0 :: t2,
        checkAsset C b0.groupKey (C.genesisId b0.genesis) a = none := by
      intro a ha
      have hamem : a ∈ a0 :: t1 := hperm.mem_iff.mpr ha
      have hchka := hchk1 a hamem
      rcases hg : a0.groupKey with _ | gk
      · rw [hg] at hchkb0 hchka
        obtain ⟨hb0none, hb0gen⟩ := (checkAsset_none_iff C _ b0).mp hchkb0
        rw [hb0none, hb0gen]
        exact hchka
      · rw [hg] at hchkb0 hchka
        obtain ⟨bgk, hbgk, hbpub, -⟩ :=
          (checkAsset_some_iff C gk _ b0).mp hchkb0
        rw [hbgk, checkAsset_some_congr C gk bgk (C.genesisId a0.genesis)
          (C.genesisId b0.genesis) a hbpub]
        exact hchka
    have hnd2 : (((b0 :: t2).map fun a => a.AssetCommitmentKey C).Nodup) :=
      ((hperm.map fun a => a.AssetCommitmentKey C).nodup_iff).mp hnd1
    obtain ⟨p2, hp2, hid2, hassets2⟩ := parseCommon_ok_of C b0 t2 hchk2 hnd2
    have hid : p2.assetID = p1.assetID := by
      rw [hid1, hid2]
      rcases hg : a0.groupKey with _ | gk
      · rw [hg] at hchkb0
        obtain ⟨hb0none, hb0gen⟩ := (checkAsset_none_iff C _ b0).mp hchkb0
        rw [commitmentIdOf_none C b0 hb0none, commitmentIdOf_none C a0 hg,
          hb0gen]
      · rw [hg] at hchkb0
        obtain ⟨bgk, hbgk, hbpub, -⟩ :=
          (checkAsset_some_iff C gk _ b0).mp hchkb0
        rw [commitmentIdOf_some C b0 bgk hbgk, commitmentIdOf_some C a0 gk hg,
          hbpub]
    have hstore1 : (a0 :: t1).foldl
        (fun s a => mapInsert s (a.AssetCommitmentKey C) (a.Leaf C)) []
        = (a0 :: t1).map fun a => (a.AssetCommitmentKey C, a.Leaf C) := by
      rw [buildStore_eq C (a0 :: t1) [] (by simp) hnd1]
      simp
    have hstore2 : (b0 :: t2).foldl
        (fun s a => mapInsert s (a.AssetCommitmentKey C) (a.Leaf C)) []
        = (b0 :: t2).map fun a => (a.AssetCommitmentKey C, a.Leaf C) := by
      rw [buildStore_eq C (b0 :: t2) [] (by simp) hnd2]
      simp
    have hsperm : ((a0 :: t1).map fun a =>
        (a.AssetCommitmentKey C, a.Leaf C)).Perm
        ((b0 :: t2).map fun a => (a.AssetCommitmentKey C, a.Leaf C)) :=
      hperm.map _
    have hsnd : (((a0 :: t1).map fun a =>
        (a.AssetCommitmentKey C, a.Leaf C)).map Prod.fst).Nodup := by
      rw [List.map_map]
      exact hnd1
    have htree := treeRootOf_perm C _ _ hsperm
      (store_entry_len C hwf (a0 :: t1)) (store_entry_val C hwf (a0 :: t1))
      hsnd
    have hbt1 : (buildCommitment C (a0 :: t1) p1).treeRoot
        = treeRootOf C ((a0 :: t1).foldl
          (fun s a => mapInsert s (a.AssetCommitmentKey C) (a.Leaf C)) []) :=
      rfl
    have hbt2 : (buildCommitment C (b0 :: t2) p2).treeRoot
        = treeRootOf C ((b0 :: t2).foldl
          (fun s a => mapInsert s (a.AssetCommitmentKey C) (a.Leaf C)) []) :=
      rfl
    have htreq : (buildCommitment C (b0 :: t2) p2).treeRoot
        = (buildCommitment C (a0 :: t1) p1).treeRoot := by
      rw [hbt1, hbt2, hstore1, hstore2]
      exact htree.symm
    refine ⟨buildCommitment C (b0 :: t2) p2,
      (newAssetCommitment_ok_iff C (b0 :: t2) _).mpr ⟨p2, hp2, rfl⟩,
      htreq, ?_⟩
    have hida : (buildCommitment C (b0 :: t2) p2).assetID
        = (buildCommitment C (a0 :: t1) p1).assetID := hid
    rw [AssetCommitment.Root, AssetCommitment.Root, htreq, hida]

/-- Witness for claim C4 at a concrete commitment and the identity
permutation. -/
theorem newAssetCommitment_perm_witness :
    ∃ c1 c2, NewAssetCommitment wCryptoT [wAsset] = .ok c1 ∧
      NewAssetCommitment wCryptoT [wAsset] = .ok c2 ∧
      c2.treeRoot = c1.treeRoot ∧ c2.Root wCryptoT = c1.Root wCryptoT := by
  have hwf : CryptoWF wCryptoT := by
    intro d
    constructor
    · simp [wCryptoT]
    · intro b hb
      simp [wCryptoT] at hb
      omega
  obtain ⟨c1, hc1⟩ : ∃ c, NewAssetCommitment wCryptoT [wAsset] = .ok c :=
    ⟨_, rfl⟩
  obtain ⟨c2, hc2, ht, hr⟩ := newAssetCommitment_perm wCryptoT hwf
    [wAsset] [wAsset] c1 hc1 (List.Perm.refl _)
  exact ⟨c1, c2, hc1, hc2, ht, hr⟩

lemma wCryptoT_wf : CryptoWF wCryptoT := by
  intro d
  constructor
  · simp [wCryptoT]
  · intro b hb
    simp [wCryptoT] at hb
    omega

/-- Claim C3: for every AssetCommitment, TapCommitmentLeaf returns a leaf
whose payload is exactly the one-byte commitment version, followed by the
32-byte commitment root hash, followed by the 8-byte big-endian node sum of
the tree root, and whose leaf sum equals that node sum.  The hypothesis
CryptoWF records that the external sha256 returns 32-byte digests. -/
theorem tapCommitmentLeaf_layout (C : Crypto) (hwf : CryptoWF C)
    (c : AssetCommitment) :
    (c.TapCommitmentLeaf C).value
      = c.version.val :: (c.Root C ++ be64 c.treeRoot.NodeSum) ∧
    (c.Root C).length = 32 ∧
    (be64 c.treeRoot.NodeSum).length = 8 ∧
    (c.TapCommitmentLeaf C).value.length = 41 ∧
    (c.TapCommitmentLeaf C).value.take 1 = [c.version.val] ∧
    ((c.TapCommitmentLeaf C).value.drop 1).take 32 = c.Root C ∧
    (c.TapCommitmentLeaf C).value.drop 33 = be64 c.treeRoot.NodeSum ∧
    (c.TapCommitmentLeaf C).sum = c.treeRoot.NodeSum := by
  have hrootlen : (c.Root C).length = 32 := (hwf _).1
  have hbelen : (be64 c.treeRoot.NodeSum).length = 8 := rfl
  have hval : (c.TapCommitmentLeaf C).value
      = c.version.val :: (c.Root C ++ be64 c.treeRoot.NodeSum) := rfl
  refine ⟨hval, hrootlen, hbelen, ?_, ?_, ?_, ?_, rfl⟩
  · rw [hval, List.length_cons, List.length_append, hrootlen, hbelen]
  · rw [hval]
    rfl
  · rw [hval]
    show (c.Root C ++ be64 c.treeRoot.NodeSum).take 32 = c.Root C
    rw [← hrootlen, List.take_left]
  · rw [hval]
    show (c.Root C ++ be64 c.treeRoot.NodeSum).drop 32
      = be64 c.treeRoot.NodeSum
    rw [← hrootlen, List.drop_left]

/-- Witness for claim C3 at a concrete commitment: the payload is 41 bytes
long. -/
theorem tapCommitmentLeaf_layout_witness :
    (trivAC.TapCommitmentLeaf wCryptoT).value.length = 41 :=
  (tapCommitmentLeaf_layout wCryptoT wCryptoT_wf trivAC).2.2.2.1

/-- Witness for the amended claim C7 at a concrete accepted path. -/
theorem extractLocatorFromPath_ok_iff_witness :
    extractLocatorFromPath [BIP0043Purpose + HardenedKeyStart,
      1 + HardenedKeyStart, 2 + HardenedKeyStart, 0, 4]
      = .ok { family := 2, index := 4 } := by
  apply (extractLocatorFromPath_ok_iff _ _).mpr
  refine ⟨BIP0043Purpose + HardenedKeyStart, 1 + HardenedKeyStart,
    2 + HardenedKeyStart, 0, 4, rfl, rfl, by omega, ?_⟩
  have hsub : 2 + HardenedKeyStart - HardenedKeyStart = 2 := by omega
  rw [hsub]
